import Mathlib

/-!
# Memoizing cache (`learn/memo/memo/memo.go`)

A shallow embedding of the five memoization schemes of `memo.go` and of the
workload of `memo_test.go`.

Modelling conventions.

* `interface{}` and `error` values are `Option V` and `Option E`; `none` is `nil`.
* The computation `f` is an arbitrary Go function: it may read and change the
  outside world (the tests use an HTTP fetch).  It is embedded as a function that
  takes and returns a world `σ`.  Every invocation is recorded, with the result it
  produced, in a log, so that "how often was `f` invoked" is observable.
* `map[string]T` is a function `String → Option T`; for `T = *entry`, `none` is the
  `nil` pointer a missing key yields.
* `*entry` pointers are indices into a heap (a list of entries); allocation appends.
* A `chan struct{}` that is only ever closed is a Boolean (`true` = closed).
* Goroutines are interleaved by an explicit scheduler: a step function takes the
  choice of the goroutine that moves next.
* In scheme 5 a call of `f` takes two steps, its start and its return, so that there are
  states in which computations are under way; the effect of `f` on the world and its
  result are taken at its return, and the log records the invocations that have returned.
-/

namespace GoMemo

/-! ## Results, functions and the recorded environment -/

/-- Go `result`: the pair of a value and an error, each possibly `nil`. -/
structure result (V E : Type) where
  value : Option V
  err : Option E
deriving DecidableEq, Repr

/-- The zero value of `result`. -/
def result.zero {V E : Type} : result V E := ⟨none, none⟩

/-- Go `Func`: a computation from a key, run in a world it may change. -/
abbrev Func (σ V E : Type) := String → σ → result V E × σ

/-- The world `f` runs in, and the log of the invocations of `f` so far. -/
structure Env (σ V E : Type) where
  world : σ
  log : List (String × result V E)

/-- One invocation of `f`: runs it in the current world and records the call. -/
def invoke {σ V E : Type} (f : Func σ V E) (key : String) (env : Env σ V E) :
    result V E × Env σ V E :=
  ((f key env.world).1, ⟨(f key env.world).2, env.log ++ [(key, (f key env.world).1)]⟩)

/-- The keys `f` was invoked with, in order. -/
def Env.calls {σ V E : Type} (env : Env σ V E) : List String := env.log.map Prod.fst

/-- Go map assignment `m[key] = v`. -/
def mapSet {α : Type} (m : String → Option α) (key : String) (v : α) : String → Option α :=
  fun k => if k = key then some v else m k

/-- The empty map of `make(map[string]T)`. -/
def mapEmpty {α : Type} : String → Option α := fun _ => none

/-- What a goroutine's step can do: complete, stay blocked (no step possible), or panic. -/
inductive Outcome (α : Type) where
  | ok (a : α)
  | blocked
  | panic (msg : String)

/-! ## Scheme 1: `Memo` -/

/-- Go `Memo`. -/
structure Memo (σ V E : Type) where
  f : Func σ V E
  cache : String → Option (result V E)

/-- Go `New`. -/
def New {σ V E : Type} (f : Func σ V E) : Memo σ V E := ⟨f, mapEmpty⟩

/-- Go `Memo.Get`: returns the pair it returns, the memo and the environment afterwards. -/
def Memo.Get {σ V E : Type} (memo : Memo σ V E) (key : String) (env : Env σ V E) :
    result V E × Memo σ V E × Env σ V E :=
  match memo.cache key with
  | some res => (res, memo, env)
  | none =>
    let r := invoke memo.f key env
    (r.1, { memo with cache := mapSet memo.cache key r.1 }, r.2)

/-- The workload of `incomingURLs` in `memo_test.go`. -/
def incomingURLs : List String :=
  ["http://golang.org", "http://godoc.org", "http://play.golang.org", "http://golang.io",
   "http://golang.org", "http://godoc.org", "http://play.golang.org", "http://gopl.io"]

/-- Calls of `memo.Get(k)` for the keys `k` of a list, one after the other, their results
dropped: the memo and the environment afterwards. -/
def Memo.Gets {σ V E : Type} (memo : Memo σ V E) (env : Env σ V E) :
    List String → Memo σ V E × Env σ V E
  | [] => (memo, env)
  | k :: rest => Memo.Gets (memo.Get k env).2.1 (memo.Get k env).2.2 rest

/-- The loop of `Sequential` in `memo_test.go`: one `Get` per URL, in order.  After a `Get`
with an error the loop goes on to the next URL; after a `Get` without error it evaluates
`len(value.([]byte))`, which panics when the value is `nil` or not a `[]byte`.  The type
assertion is the parameter `asBytes`: the bytes of a value whose dynamic type is `[]byte`. -/
def Sequential {σ V E : Type} (asBytes : V → Option (List UInt8)) (m : Memo σ V E)
    (env : Env σ V E) : List String → Outcome (Memo σ V E × Env σ V E)
  | [] => Outcome.ok (m, env)
  | url :: rest =>
    match (m.Get url env).1.err with
    | some _ => Sequential asBytes (m.Get url env).2.1 (m.Get url env).2.2 rest
    | none =>
      match (m.Get url env).1.value.bind asBytes with
      | none => Outcome.panic "interface conversion: interface {} is not []uint8"
      | some _ => Sequential asBytes (m.Get url env).2.1 (m.Get url env).2.2 rest

/-! ## Scheme 3: `Memo3` -/

/-- Go `Memo3` (the fields of `Memo2`); the mutex is free between two steps. -/
structure Memo3 (σ V E : Type) where
  cache : String → Option (result V E)
  env : Env σ V E

/-- Where a call of `Memo3.Get` stands: before the first critical section, after a
missed lookup (about to call `f`), holding the result of `f` (about to store it in the
second critical section), or returned. -/
inductive Get3 (V E : Type) where
  | start (key : String)
  | computing (key : String)
  | storing (key : String) (res : result V E)
  | returned (key : String) (res : result V E)

/-- The shared `Memo3` and the concurrent calls of `Memo3.Get`. -/
structure Sys3 (σ V E : Type) where
  memo : Memo3 σ V E
  calls : List (Get3 V E)

/-- One step of call `i` of `Memo3.Get`: the locked lookup, the unlocked call of `f`, or
the locked store. -/
def step3 {σ V E : Type} (f : Func σ V E) (i : Nat) (s : Sys3 σ V E) : Outcome (Sys3 σ V E) :=
  match s.calls[i]? with
  | none => Outcome.blocked
  | some (Get3.start key) =>
    match s.memo.cache key with
    | some res => Outcome.ok { s with calls := s.calls.set i (Get3.returned key res) }
    | none => Outcome.ok { s with calls := s.calls.set i (Get3.computing key) }
  | some (Get3.computing key) =>
    let r := invoke f key s.memo.env
    Outcome.ok { memo := { s.memo with env := r.2 }, calls := s.calls.set i (Get3.storing key r.1) }
  | some (Get3.storing key res) =>
    Outcome.ok { memo := { s.memo with cache := mapSet s.memo.cache key res },
                 calls := s.calls.set i (Get3.returned key res) }
  | some (Get3.returned _ _) => Outcome.blocked

/-- Runs a schedule: each element names the call that moves next; a call that cannot
move is skipped. -/
def run3 {σ V E : Type} (f : Func σ V E) : List Nat → Sys3 σ V E → Outcome (Sys3 σ V E)
  | [], s => Outcome.ok s
  | i :: rest, s =>
    match step3 f i s with
    | Outcome.ok s1 => run3 f rest s1
    | Outcome.blocked => run3 f rest s
    | Outcome.panic msg => Outcome.panic msg

/-! ## Scheme 4: `Memo4` -/

/-- Go `entry`; `ready` tells whether the channel `ready` has been closed. -/
structure entry (V E : Type) where
  res : result V E
  ready : Bool

/-- The entry of `&entry{ready: make(chan struct{})}`. -/
def entry.fresh {V E : Type} : entry V E := ⟨result.zero, false⟩

/-- Go `Memo4`; the mutex is free between two steps. -/
structure Memo4 (σ V E : Type) where
  cache : String → Option Nat
  heap : List (entry V E)
  env : Env σ V E

/-- Go `New4`, in the world `w` with no invocation of `f` logged. -/
def New4 {σ V E : Type} (w : σ) : Memo4 σ V E := ⟨mapEmpty, [], ⟨w, []⟩⟩

/-- Where a call of `Memo4.Get` stands: before the critical section, in the first branch
(entry inserted, about to call `f`), in the second branch (waiting on `e.ready`), or
returned; `first` records which branch the call took. -/
inductive Get4 (V E : Type) where
  | start (key : String)
  | computing (key : String) (e : Nat)
  | waiting (key : String) (e : Nat)
  | returned (key : String) (res : result V E) (first : Bool)

/-- The key a call of `Memo4.Get` was made with. -/
def Get4.key {V E : Type} : Get4 V E → String
  | Get4.start k => k
  | Get4.computing k _ => k
  | Get4.waiting k _ => k
  | Get4.returned k _ _ => k

/-- The shared `Memo4` and the concurrent calls of `Memo4.Get`. -/
structure Sys4 (σ V E : Type) where
  memo : Memo4 σ V E
  calls : List (Get4 V E)

/-- One step of call `i` of `Memo4.Get`: the critical section (lookup, and insertion of a
fresh entry when there is none); the call of `f`, the store and `close(e.ready)`; or the
wait on `e.ready`. -/
def step4 {σ V E : Type} (f : Func σ V E) (i : Nat) (s : Sys4 σ V E) : Outcome (Sys4 σ V E) :=
  match s.calls[i]? with
  | none => Outcome.blocked
  | some (Get4.start key) =>
    match s.memo.cache key with
    | none =>
      Outcome.ok { memo := { s.memo with cache := mapSet s.memo.cache key s.memo.heap.length,
                                         heap := s.memo.heap ++ [entry.fresh] },
                   calls := s.calls.set i (Get4.computing key s.memo.heap.length) }
    | some e => Outcome.ok { s with calls := s.calls.set i (Get4.waiting key e) }
  | some (Get4.computing key e) =>
    let r := invoke f key s.memo.env
    match s.memo.heap[e]? with
    | none => Outcome.panic "invalid memory address"
    | some ent =>
      if ent.ready then Outcome.panic "close of closed channel"
      else Outcome.ok { memo := { s.memo with heap := s.memo.heap.set e ⟨r.1, true⟩, env := r.2 },
                        calls := s.calls.set i (Get4.returned key r.1 true) }
  | some (Get4.waiting key e) =>
    match s.memo.heap[e]? with
    | none => Outcome.panic "invalid memory address"
    | some ent =>
      if ent.ready then Outcome.ok { s with calls := s.calls.set i (Get4.returned key ent.res false) }
      else Outcome.blocked
  | some (Get4.returned _ _ _) => Outcome.blocked

/-- Runs a schedule of `Memo4.Get` calls; a call that cannot move is skipped. -/
def run4 {σ V E : Type} (f : Func σ V E) : List Nat → Sys4 σ V E → Outcome (Sys4 σ V E)
  | [], s => Outcome.ok s
  | i :: rest, s =>
    match step4 f i s with
    | Outcome.ok s1 => run4 f rest s1
    | Outcome.blocked => run4 f rest s
    | Outcome.panic msg => Outcome.panic msg

/-- The state in which `Get` is called concurrently once per key of `keys` on a new `Memo4`. -/
def start4 {σ V E : Type} (w : σ) (keys : List String) : Sys4 σ V E :=
  ⟨New4 w, keys.map Get4.start⟩

/-! ## Scheme 5: `Memo5` -/

/-- Go `request`: a key and the caller's private response conduit (a channel identity). -/
structure request where
  key : String
  response : Nat
deriving DecidableEq, Repr

/-- The goroutines `Memo5.server` spawns: `go e.call(f, key)` (the Worker), which is
either about to call `f` (`call`) or inside `f(key)` (`running`), and
`go cache[key].deliver(response)` (the Deliverer; its receiver may be `nil`). -/
inductive Task where
  | call (e : Nat) (key : String)
  | running (e : Nat) (key : String)
  | deliver (e : Option Nat) (response : Nat)
deriving DecidableEq, Repr

/-- The state of a `Memo5` and of the goroutines behind it.

* `closed`: the channel `memo.requests` has been closed;
* `sendq`: the requests of the `Get` calls blocked in `memo.requests <- req`, in the
  order in which the server receives them;
* `cache`: the local variable `cache` of `Memo5.server`;
* `heap`: the entries allocated so far;
* `tasks`: the goroutines spawned by the server that have not finished;
* `env`: the world of `f` and the log of its invocations;
* `sent`: the values sent so far on response conduits, with the conduit. -/
structure Memo5 (σ V E : Type) where
  closed : Bool
  sendq : List request
  cache : String → Option Nat
  heap : List (entry V E)
  tasks : List Task
  env : Env σ V E
  sent : List (Nat × result V E)

/-- Go `New5`: an open request channel and a server with an empty cache, in the world `w`
with no invocation of `f` logged. -/
def New5 {σ V E : Type} (w : σ) : Memo5 σ V E :=
  ⟨false, [], mapEmpty, [], [], ⟨w, []⟩, []⟩

/-- The body of the loop of `Memo5.server` for the request `req`. -/
def serverBody {σ V E : Type} (req : request) (s : Memo5 σ V E) : Memo5 σ V E :=
  let s1 : Memo5 σ V E :=
    if (s.cache req.key).isNone then
      { s with cache := mapSet s.cache req.key s.heap.length,
               heap := s.heap ++ [entry.fresh],
               tasks := s.tasks ++ [Task.call s.heap.length req.key] }
    else s
  { s1 with tasks := s1.tasks ++ [Task.deliver (s1.cache req.key) req.response] }

/-- One iteration of `for req := range memo.requests`: receives the next request and runs
the body.  On a closed channel the loop has ended and the server has returned; on an open
channel without a request the server is blocked. -/
def serverStep {σ V E : Type} (s : Memo5 σ V E) : Outcome (Memo5 σ V E) :=
  if s.closed then Outcome.blocked
  else
    match s.sendq with
    | [] => Outcome.blocked
    | req :: rest => Outcome.ok (serverBody req { s with sendq := rest })

/-- Go `entry.call` from the return of `f(key)` on: the result of `f` is stored in the
entry and `ready` is closed. -/
def entry.call {σ V E : Type} (f : Func σ V E) (e : Nat) (key : String) (s : Memo5 σ V E) :
    Outcome (Memo5 σ V E) :=
  let r := invoke f key s.env
  match s.heap[e]? with
  | none => Outcome.panic "invalid memory address"
  | some ent =>
    if ent.ready then Outcome.panic "close of closed channel"
    else Outcome.ok { s with heap := s.heap.set e ⟨r.1, true⟩, env := r.2 }

/-- Go `entry.deliver`: waits for `ready` to be closed, then sends the entry's result on
the response conduit (whose `Get` is waiting to receive). -/
def entry.deliver {σ V E : Type} (e : Option Nat) (response : Nat) (s : Memo5 σ V E) :
    Outcome (Memo5 σ V E) :=
  match e with
  | none => Outcome.panic "nil pointer dereference"
  | some p =>
    match s.heap[p]? with
    | none => Outcome.panic "invalid memory address"
    | some ent =>
      if ent.ready then Outcome.ok { s with sent := s.sent ++ [(response, ent.res)] }
      else Outcome.blocked

/-- The goroutine that moves next: the server (Owner), the `i`-th unfinished task, or the
`i`-th `Get` blocked in its send. -/
inductive Choice where
  | owner
  | task (i : Nat)
  | sender (i : Nat)
deriving DecidableEq, Repr

/-- One step of the system behind a `Memo5`: the Owner handles a request; a Worker enters
`f(key)`, or `f(key)` returns and the Worker stores the result and closes `ready`; a
Deliverer delivers; a `Get` blocked in its send stays blocked while the channel is open and
panics once it has been closed. -/
def step5 {σ V E : Type} (f : Func σ V E) (c : Choice) (s : Memo5 σ V E) : Outcome (Memo5 σ V E) :=
  match c with
  | Choice.owner => serverStep s
  | Choice.task i =>
    match s.tasks[i]? with
    | none => Outcome.blocked
    | some (Task.call e key) => Outcome.ok { s with tasks := s.tasks.set i (Task.running e key) }
    | some (Task.running e key) => entry.call f e key { s with tasks := s.tasks.eraseIdx i }
    | some (Task.deliver e response) =>
      entry.deliver e response { s with tasks := s.tasks.eraseIdx i }
  | Choice.sender i =>
    match s.sendq[i]? with
    | none => Outcome.blocked
    | some _ => if s.closed then Outcome.panic "send on closed channel" else Outcome.blocked

/-- Runs a schedule; a goroutine that cannot move is skipped. -/
def run5 {σ V E : Type} (f : Func σ V E) : List Choice → Memo5 σ V E → Outcome (Memo5 σ V E)
  | [], s => Outcome.ok s
  | c :: rest, s =>
    match step5 f c s with
    | Outcome.ok s1 => run5 f rest s1
    | Outcome.blocked => run5 f rest s
    | Outcome.panic msg => Outcome.panic msg

/-- The states the system can reach from `s`, under every interleaving. -/
inductive Reach5 {σ V E : Type} (f : Func σ V E) (s : Memo5 σ V E) : Memo5 σ V E → Prop where
  | refl : Reach5 f s s
  | step {t u : Memo5 σ V E} (c : Choice) : Reach5 f s t → step5 f c t = Outcome.ok u → Reach5 f s u

/-- A new `Memo5` on which the `Get` calls carrying `reqs` have been issued. -/
def start5 {σ V E : Type} (w : σ) (reqs : List request) : Memo5 σ V E :=
  { New5 w with sendq := reqs }

/-- Go `Memo5.Close`: `close(memo.requests)`.  Closing a closed channel panics; closing an
open one returns normally and leaves it closed (a `Get` blocked in its send then panics in
its own goroutine, see `step5`). -/
def Memo5.Close {σ V E : Type} (s : Memo5 σ V E) : Outcome (Memo5 σ V E) :=
  if s.closed then Outcome.panic "close of closed channel"
  else Outcome.ok { s with closed := true }

/-- Go `Memo5.Get` with the fresh conduit `response`: sends the request (a send on a closed
channel panics), lets the other goroutines run as `sched` says, and returns the first value
sent on `response`; it is still blocked when there is none yet. -/
def Memo5.Get {σ V E : Type} (f : Func σ V E) (s : Memo5 σ V E) (key : String) (response : Nat)
    (sched : List Choice) : Outcome (result V E × Memo5 σ V E) :=
  if s.closed then Outcome.panic "send on closed channel"
  else
    match run5 f sched { s with sendq := s.sendq ++ [⟨key, response⟩] } with
    | Outcome.panic msg => Outcome.panic msg
    | Outcome.blocked => Outcome.blocked
    | Outcome.ok s1 =>
      match s1.sent.find? (fun m => m.1 == response) with
      | some m => Outcome.ok (m.2, s1)
      | none => Outcome.blocked

/-! ## Concrete instances used to evaluate the definitions -/

/-- A computation that succeeds: the length of the key, in an unchanged world. -/
def lenFunc : Func Unit Nat String := fun key w => (⟨some key.length, none⟩, w)

/-- A computation that counts its invocations in the world and returns the count. -/
def countFunc : Func Nat Nat String := fun _ w => (⟨some w, none⟩, w + 1)

/-- A computation that succeeds with the bytes of the key, in an unchanged world. -/
def bodyFunc : Func Unit (List UInt8) String :=
  fun key w => (⟨some (key.toList.map (fun c => c.toNat.toUInt8)), none⟩, w)

/-- A computation that always fails. -/
def failFunc : Func Unit Nat String := fun key w => (⟨none, some ("no such host: " ++ key)⟩, w)

/-- An environment with no invocation logged. -/
def env0 {σ : Type} (w : σ) : Env σ Nat String := ⟨w, []⟩

/-! ## The invariant of the system behind a `Memo5` -/

/-- Tells whether a task is a Deliverer bound to the conduit `c`. -/
def Task.isDeliverTo (c : Nat) : Task → Bool
  | Task.deliver _ c1 => c1 == c
  | _ => false

/-- Tells whether a task is a Worker that has not entered `f` yet. -/
def Task.isCall : Task → Bool
  | Task.call _ _ => true
  | _ => false

/-- The task once a Worker that has not entered `f` has entered it. -/
def Task.enter : Task → Task
  | Task.call e key => Task.running e key
  | t => t

/-- The steps a task has still to take. -/
def Task.work : Task → Nat
  | Task.call _ _ => 2
  | _ => 1

/-- The invocations of `f` for the key `k` in a log. -/
def logFor {V E : Type} (k : String) (log : List (String × result V E)) : List (String × result V E) :=
  log.filter (fun x => x.1 == k)

/-- The invariant of the system behind a `Memo5`, `pre` being the requests the server has
received so far.

* the table maps keys to allocated entries, one-to-one and onto, and holds exactly the
  keys received;
* the request channel is open;
* a Worker, inside `f` or not yet, is bound to the entry of its key, which is not ready,
  and there is at most one; an entry that is not ready has its Worker;
* `f` has been invoked for a key exactly when the key's entry is ready, once, and the
  entry holds what that invocation returned;
* a Deliverer is bound to the conduit of a received request and to the entry of its key;
* a value sent on a conduit is the result of the ready entry of a received request with
  that conduit;
* for every conduit, Deliverers and sent values together are as many as the received
  requests with that conduit. -/
structure Inv5 {σ V E : Type} (pre : List request) (s : Memo5 σ V E) : Prop where
  cache_lt : ∀ k p, s.cache k = some p → p < s.heap.length
  cache_inj : ∀ k k1 p, s.cache k = some p → s.cache k1 = some p → k = k1
  cache_surj : ∀ p, p < s.heap.length → ∃ k, s.cache k = some p
  cache_pre : ∀ k, s.cache k ≠ none ↔ k ∈ pre.map request.key
  isOpen : s.closed = false
  call_ok : ∀ p k, Task.call p k ∈ s.tasks ∨ Task.running p k ∈ s.tasks →
    s.cache k = some p ∧ ∃ ent, s.heap[p]? = some ent ∧ ent.ready = false
  call_once : ∀ p k, s.tasks.count (Task.call p k) + s.tasks.count (Task.running p k) ≤ 1
  unready_call : ∀ k p ent, s.cache k = some p → s.heap[p]? = some ent → ent.ready = false →
    Task.call p k ∈ s.tasks ∨ Task.running p k ∈ s.tasks
  log_none : ∀ k, s.cache k = none → logFor k s.env.log = []
  log_unready : ∀ k p ent, s.cache k = some p → s.heap[p]? = some ent → ent.ready = false →
    logFor k s.env.log = []
  log_ready : ∀ k p ent, s.cache k = some p → s.heap[p]? = some ent → ent.ready = true →
    logFor k s.env.log = [(k, ent.res)]
  deliver_ok : ∀ e c, Task.deliver e c ∈ s.tasks →
    ∃ r, r ∈ pre ∧ r.response = c ∧ s.cache r.key = e
  sent_ok : ∀ c v, (c, v) ∈ s.sent →
    ∃ r, r ∈ pre ∧ r.response = c ∧ ∃ p, s.cache r.key = some p ∧ s.heap[p]? = some ⟨v, true⟩
  account : ∀ c, s.tasks.countP (Task.isDeliverTo c) + s.sent.countP (fun m => m.1 == c)
    = pre.countP (fun r => r.response == c)

/-- Nothing is left to do: no request waits and no spawned goroutine is unfinished. -/
def Memo5.quiescent {σ V E : Type} (s : Memo5 σ V E) : Prop := s.sendq = [] ∧ s.tasks = []

/-- A bound on the number of steps the system can still take. -/
def Memo5.work {σ V E : Type} (s : Memo5 σ V E) : Nat :=
  4 * s.sendq.length + (s.tasks.map Task.work).sum

/-! ## Concrete runs of the system behind a `Memo5` -/

/-- Two requests for a URL whose fetch fails. -/
def errReqs : List request := [⟨"http://golang.io", 0⟩, ⟨"http://golang.io", 1⟩]

/-- A schedule for `errReqs`: the Owner handles the first request, the Worker enters `f`,
and `f` returns. -/
def errSched : List Choice := [Choice.owner, Choice.task 0, Choice.task 0]

/-- The state `errSched` leads to with `failFunc`: the error is stored in the ready entry,
the first Deliverer is yet to run, the second request is yet to be handled. -/
def errState : Memo5 Unit Nat String :=
  { closed := false
    sendq := [⟨"http://golang.io", 1⟩]
    cache := mapSet mapEmpty "http://golang.io" 0
    heap := [⟨⟨none, some "no such host: http://golang.io"⟩, true⟩]
    tasks := [Task.deliver (some 0) 0]
    env := ⟨(), [("http://golang.io", ⟨none, some "no such host: http://golang.io"⟩)]⟩
    sent := [] }

/-- Three requests, the first and the last for the same key. -/
def abaReqs : List request := [⟨"a", 0⟩, ⟨"b", 1⟩, ⟨"a", 2⟩]

/-- A schedule for `abaReqs`: the first request is handled, computed and answered before
the other two arrive at the Owner. -/
def abaSched : List Choice :=
  [Choice.owner, Choice.task 0, Choice.task 0, Choice.task 0, Choice.owner, Choice.owner,
   Choice.task 2, Choice.task 0, Choice.task 0, Choice.task 0]

/-- The state `abaSched` leads to, with `countFunc` started in the world `0`. -/
def abaState : Memo5 Nat Nat String :=
  { closed := false
    sendq := []
    cache := mapSet (mapSet mapEmpty "a" 0) "b" 1
    heap := [⟨⟨some 0, none⟩, true⟩, ⟨⟨some 1, none⟩, true⟩]
    tasks := []
    env := ⟨2, [("a", ⟨some 0, none⟩), ("b", ⟨some 1, none⟩)]⟩
    sent := [(0, ⟨some 0, none⟩), (2, ⟨some 0, none⟩), (1, ⟨some 1, none⟩)] }

/-! ## The invariant of the concurrent calls of `Memo4.Get` -/

/-- Tells whether a call of `Memo4.Get` has been through its critical section. -/
def Get4.taken {V E : Type} : Get4 V E → Bool
  | Get4.start _ => false
  | _ => true

/-- Tells whether a call of `Memo4.Get` took the first branch: it found no entry,
inserted one, and is the call that invokes `f`. -/
def Get4.first {V E : Type} : Get4 V E → Bool
  | Get4.computing _ _ => true
  | Get4.returned _ _ b => b
  | _ => false

/-- Tells whether a call of `Memo4.Get` has returned. -/
def Get4.done {V E : Type} : Get4 V E → Bool
  | Get4.returned _ _ _ => true
  | _ => false

/-- The steps a call of `Memo4.Get` has still to take. -/
def Get4.work {V E : Type} : Get4 V E → Nat
  | Get4.start _ => 2
  | Get4.computing _ _ => 1
  | Get4.waiting _ _ => 1
  | Get4.returned _ _ _ => 0

/-- A bound on the number of steps the calls of `Memo4.Get` can still take. -/
def Sys4.work {σ V E : Type} (s : Sys4 σ V E) : Nat := (s.calls.map Get4.work).sum

/-- The first call with key `k` that a schedule lets move: the first to take the lock
among the calls for `k`. -/
def firstLock (keys : List String) (sched : List Nat) (k : String) : Option Nat :=
  sched.find? (fun j => keys[j]? == some k)

/-- The invariant of the concurrent calls of `Memo4.Get` made with `keys`, after the
schedule `sched` has been run.

* the calls keep their keys; the table maps keys one-to-one to allocated entries;
* a call in the first branch is bound to the entry of its key, which is not ready; a
  waiting call is bound to the entry of its key; a returned call returned the result of
  the ready entry of its key;
* for every key at most one call took the first branch, every entry was inserted by such
  a call, and an entry that is not ready has its call in the first branch;
* `f` has been invoked for a key exactly when the key's entry is ready, once, and the
  entry holds what that invocation returned;
* a call the schedule has named has been through its critical section, and a call that
  took the first branch is the first call of its key in the schedule. -/
structure Inv4 {σ V E : Type} (keys : List String) (sched : List Nat) (s : Sys4 σ V E) :
    Prop where
  keys_eq : s.calls.map Get4.key = keys
  cache_lt : ∀ k p, s.memo.cache k = some p → p < s.memo.heap.length
  cache_inj : ∀ k k1 p, s.memo.cache k = some p → s.memo.cache k1 = some p → k = k1
  comp_ok : ∀ (i : Nat) k p, s.calls[i]? = some (Get4.computing k p) →
    s.memo.cache k = some p ∧ ∃ ent, s.memo.heap[p]? = some ent ∧ ent.ready = false
  wait_ok : ∀ (i : Nat) k p, s.calls[i]? = some (Get4.waiting k p) → s.memo.cache k = some p
  ret_ok : ∀ (i : Nat) k r b, s.calls[i]? = some (Get4.returned k r b) →
    ∃ p, s.memo.cache k = some p ∧ s.memo.heap[p]? = some ⟨r, true⟩
  first_once : ∀ (i j : Nat) ci cj, s.calls[i]? = some ci → s.calls[j]? = some cj →
    ci.first = true → cj.first = true → ci.key = cj.key → i = j
  creator : ∀ k p, s.memo.cache k = some p →
    ∃ (i : Nat) (c : Get4 V E), s.calls[i]? = some c ∧ c.key = k ∧ c.first = true
  unready_comp : ∀ k p ent, s.memo.cache k = some p → s.memo.heap[p]? = some ent →
    ent.ready = false → ∃ i : Nat, s.calls[i]? = some (Get4.computing k p)
  log_none : ∀ k, s.memo.cache k = none → logFor k s.memo.env.log = []
  log_unready : ∀ k p ent, s.memo.cache k = some p → s.memo.heap[p]? = some ent →
    ent.ready = false → logFor k s.memo.env.log = []
  log_ready : ∀ k p ent, s.memo.cache k = some p → s.memo.heap[p]? = some ent →
    ent.ready = true → logFor k s.memo.env.log = [(k, ent.res)]
  sched_taken : ∀ j, j ∈ sched → ∀ c, s.calls[j]? = some c → c.taken = true
  lock_first : ∀ (i : Nat) c, s.calls[i]? = some c → c.first = true →
    firstLock keys sched c.key = some i

/-- The requests of `Concurrent` in `memo_test.go`: one `Get` per URL of the workload,
each with its own conduit, in the order in which the Owner receives them. -/
def urlReqs : List request :=
  List.zipWith (fun k c => ⟨k, c⟩) incomingURLs (List.range incomingURLs.length)

/-- A schedule for `urlReqs`: the Owner handles the eight requests, then the spawned
goroutines run one after the other. -/
def urlSched : List Choice :=
  List.replicate 8 Choice.owner ++ List.replicate 18 (Choice.task 0)

/-- A schedule for three calls of `Memo4.Get`: call 1 takes the lock first, then calls 0
and 2, then each finishes. -/
def abSched4 : List Nat := [1, 0, 2, 1, 0, 2]

/-- The state `abSched4` leads to for the keys `a`, `a`, `b`, with `countFunc` started in
the world `0`. -/
def abState4 : Sys4 Nat Nat String :=
  { memo :=
      { cache := mapSet (mapSet mapEmpty "a" 0) "b" 1
        heap := [⟨⟨some 0, none⟩, true⟩, ⟨⟨some 1, none⟩, true⟩]
        env := ⟨2, [("a", ⟨some 0, none⟩), ("b", ⟨some 1, none⟩)]⟩ }
    calls := [Get4.returned "a" ⟨some 0, none⟩ false, Get4.returned "a" ⟨some 0, none⟩ true,
              Get4.returned "b" ⟨some 1, none⟩ true] }

/-- The state in which the Owner has handled two requests for the keys `a` and `b` and both
Workers are inside `f`, none having returned. -/
def overlapState : Memo5 Nat Nat String :=
  { closed := false
    sendq := []
    cache := mapSet (mapSet mapEmpty "a" 0) "b" 1
    heap := [entry.fresh, entry.fresh]
    tasks := [Task.running 0 "a", Task.deliver (some 0) 0,
              Task.running 1 "b", Task.deliver (some 1) 1]
    env := ⟨0, []⟩
    sent := [] }

/-! # Theorems -/

/-! ## Lists, maps and logs -/

theorem mapSet_same {α : Type} (m : String → Option α) (key : String) (v : α) :
    mapSet m key v key = some v := by
  simp [mapSet]

theorem mapSet_other {α : Type} (m : String → Option α) (key k : String) (v : α) (h : k ≠ key) :
    mapSet m key v k = m k := by
  simp [mapSet, h]

theorem getElem?_some_lt {α : Type} {l : List α} {p : Nat} {a : α} (h : l[p]? = some a) :
    p < l.length := by
  rcases List.getElem?_eq_some.1 h with ⟨hlt, -⟩
  exact hlt

theorem getElem?_append_old {α : Type} {l : List α} {p : Nat} (x : α) (h : p < l.length) :
    (l ++ [x])[p]? = l[p]? :=
  List.getElem?_append_left h

theorem eraseIdx_split {α : Type} (l : List α) (i : Nat) (t : α) (h : l[i]? = some t) :
    ∃ l1 l2, l = l1 ++ t :: l2 ∧ l.eraseIdx i = l1 ++ l2 := by
  induction l generalizing i with
  | nil => simp at h
  | cons a l ih =>
    cases i with
    | zero =>
      simp at h
      subst h
      exact ⟨[], l, rfl, rfl⟩
    | succ i =>
      simp at h
      obtain ⟨l1, l2, h1, h2⟩ := ih i h
      exact ⟨a :: l1, l2, by simp [h1], by simp [h2]⟩

theorem logFor_append {V E : Type} (k : String) (l1 l2 : List (String × result V E)) :
    logFor k (l1 ++ l2) = logFor k l1 ++ logFor k l2 := by
  simp [logFor]

theorem logFor_single_same {V E : Type} (k : String) (r : result V E) :
    logFor k [(k, r)] = [(k, r)] := by
  simp [logFor]

theorem logFor_single_other {V E : Type} (k k1 : String) (r : result V E) (h : k1 ≠ k) :
    logFor k [(k1, r)] = [] := by
  simp [logFor, h]

theorem invoke_log {σ V E : Type} (f : Func σ V E) (k : String) (env : Env σ V E) :
    (invoke f k env).2.log = env.log ++ [(k, (invoke f k env).1)] := rfl

theorem getElem?_set_cases {α : Type} {l : List α} {i j : Nat} {a c old : α}
    (hi : l[i]? = some old) (h : (l.set i a)[j]? = some c) :
    (j = i ∧ c = a) ∨ (j ≠ i ∧ l[j]? = some c) := by
  by_cases hj : i = j
  · subst hj
    rw [List.getElem?_set_self (getElem?_some_lt hi)] at h
    cases h
    exact Or.inl ⟨rfl, rfl⟩
  · rw [List.getElem?_set_ne hj] at h
    exact Or.inr ⟨fun he => hj he.symm, h⟩

theorem getElem?_set_at {α : Type} {l : List α} {i : Nat} {old : α} (a : α)
    (hi : l[i]? = some old) : (l.set i a)[i]? = some a :=
  List.getElem?_set_self (getElem?_some_lt hi)

theorem getElem?_set_off {α : Type} {l : List α} {i j : Nat} (a : α) (h : j ≠ i) :
    (l.set i a)[j]? = l[j]? :=
  List.getElem?_set_ne (fun he => h he.symm)

theorem map_set_same {α β : Type} (f : α → β) {l : List α} {i : Nat} {a old : α}
    (hi : l[i]? = some old) (h : f a = f old) : (l.set i a).map f = l.map f := by
  induction l generalizing i with
  | nil => rfl
  | cons x l ih =>
    cases i with
    | zero =>
      simp at hi
      subst hi
      simp [h]
    | succ i =>
      simp at hi
      simp [ih hi]

theorem sum_map_set {α : Type} (f : α → Nat) {l : List α} {i : Nat} {a old : α}
    (hi : l[i]? = some old) : ((l.set i a).map f).sum + f old = (l.map f).sum + f a := by
  induction l generalizing i with
  | nil => simp at hi
  | cons x l ih =>
    cases i with
    | zero =>
      simp at hi
      subst hi
      simp
      omega
    | succ i =>
      simp at hi
      have := ih hi
      simp only [List.set_cons_succ, List.map_cons, List.sum_cons]
      omega

theorem mapSet_fresh_lt (cache : String → Option Nat) (key : String) (n : Nat)
    (hlt : ∀ k p, cache k = some p → p < n) :
    ∀ k p, mapSet cache key n k = some p → p < n + 1 := by
  intro k p hk
  by_cases he : k = key
  · subst he
    rw [mapSet_same] at hk
    cases hk
    exact Nat.lt_succ_self _
  · rw [mapSet_other _ _ _ _ he] at hk
    exact Nat.lt_succ_of_lt (hlt k p hk)

theorem mapSet_fresh_inj (cache : String → Option Nat) (key : String) (n : Nat)
    (hlt : ∀ k p, cache k = some p → p < n)
    (hinj : ∀ k k1 p, cache k = some p → cache k1 = some p → k = k1) :
    ∀ k k1 p, mapSet cache key n k = some p → mapSet cache key n k1 = some p → k = k1 := by
  intro k k1 p hk hk1
  by_cases he : k = key
  · by_cases he1 : k1 = key
    · rw [he, he1]
    · rw [he, mapSet_same] at hk
      cases hk
      rw [mapSet_other _ _ _ _ he1] at hk1
      exact absurd (hlt k1 _ hk1) (Nat.lt_irrefl _)
  · rw [mapSet_other _ _ _ _ he] at hk
    by_cases he1 : k1 = key
    · rw [he1, mapSet_same] at hk1
      cases hk1
      exact absurd (hlt k _ hk) (Nat.lt_irrefl _)
    · rw [mapSet_other _ _ _ _ he1] at hk1
      exact hinj k k1 p hk hk1

theorem calls_count {σ V E : Type} (env : Env σ V E) (k : String) :
    env.calls.count k = (logFor k env.log).length := by
  unfold Env.calls logFor
  induction env.log with
  | nil => rfl
  | cons x l ih =>
    by_cases hx : x.1 = k
    · simp [List.count_cons, List.filter_cons, hx, ih]
    · simp [List.count_cons, List.filter_cons, hx, ih]

theorem length_eq_dedup_length (calls keys : List String)
    (h : ∀ k, calls.count k = if k ∈ keys then 1 else 0) :
    calls.length = keys.dedup.length := by
  have hnd : calls.Nodup := by
    rw [List.nodup_iff_count_le_one]
    intro k
    rw [h k]
    split <;> simp
  have hperm : calls.Perm keys.dedup := by
    rw [List.perm_ext_iff_of_nodup hnd (List.nodup_dedup keys)]
    intro k
    rw [List.mem_dedup, ← List.count_pos_iff, h k]
    by_cases hk : k ∈ keys <;> simp [hk]
  exact hperm.length_eq

theorem mem_logFor {V E : Type} (k : String) (r : result V E) (log : List (String × result V E))
    (h : (k, r) ∈ log) : (k, r) ∈ logFor k log := by
  unfold logFor
  rw [List.mem_filter]
  exact ⟨h, by simp⟩

/-! ## Scheme 3: the duplicate computation -/

/-- C10: for every `f`, key `k` and cache that lacks `k`, two concurrent `Memo3.Get(k)`
have an interleaving in which both lookups miss before either store happens (after the
two lookups both calls are about to call `f`, the cache still lacks `k` and `f` has not
been invoked), and in which `f` is then invoked twice for `k` before both calls return. -/
theorem Memo3_duplicate_computation {σ V E : Type} (f : Func σ V E) (k : String)
    (cache : String → Option (result V E)) (env : Env σ V E) (h : cache k = none) :
    ∃ s1 s2 r1 r2,
      run3 f [0, 1] ⟨⟨cache, env⟩, [Get3.start k, Get3.start k]⟩ = Outcome.ok s1
      ∧ s1.calls = [Get3.computing k, Get3.computing k]
      ∧ s1.memo.cache k = none ∧ s1.memo.env.calls = env.calls
      ∧ run3 f [0, 1, 0, 1] s1 = Outcome.ok s2
      ∧ s2.calls = [Get3.returned k r1, Get3.returned k r2]
      ∧ s2.memo.env.calls = env.calls ++ [k, k] := by
  refine ⟨⟨⟨cache, env⟩, [Get3.computing k, Get3.computing k]⟩, _, _, _, ?_, rfl, h, rfl, rfl, rfl, ?_⟩
  · simp [run3, step3, h]
  · simp [invoke, Env.calls]

theorem Memo3_duplicate_computation_witness :
    (mapEmpty : String → Option (result Nat String)) "http://golang.org" = none
    ∧ ∃ s1 s2 r1 r2,
      run3 countFunc [0, 1] ⟨⟨mapEmpty, env0 0⟩,
        [Get3.start "http://golang.org", Get3.start "http://golang.org"]⟩ = Outcome.ok s1
      ∧ s1.calls = [Get3.computing "http://golang.org", Get3.computing "http://golang.org"]
      ∧ s1.memo.cache "http://golang.org" = none ∧ s1.memo.env.calls = (env0 0).calls
      ∧ run3 countFunc [0, 1, 0, 1] s1 = Outcome.ok s2
      ∧ s2.calls = [Get3.returned "http://golang.org" r1, Get3.returned "http://golang.org" r2]
      ∧ s2.memo.env.calls = (env0 0).calls ++ ["http://golang.org", "http://golang.org"] :=
  ⟨rfl, Memo3_duplicate_computation countFunc "http://golang.org" mapEmpty (env0 0) rfl⟩

/-! ## Scheme 4: the schedule -/

theorem firstLock_append (keys : List String) (sched l : List Nat) (k : String) (i : Nat)
    (h : firstLock keys sched k = some i) : firstLock keys (sched ++ l) k = some i := by
  unfold firstLock at h ⊢
  rw [List.find?_append, h]
  rfl

theorem firstLock_new (keys : List String) (sched : List Nat) (k : String) (i : Nat)
    (hnone : ∀ j, j ∈ sched → keys[j]? ≠ some k) (hi : keys[i]? = some k) :
    firstLock keys (sched ++ [i]) k = some i := by
  unfold firstLock
  rw [List.find?_append]
  have h1 : List.find? (fun j => keys[j]? == some k) sched = none := by
    rw [List.find?_eq_none]
    intro j hj
    simpa using hnone j hj
  rw [h1]
  simp [hi]

/-! ## Scheme 4: the invariant -/

theorem Inv4_start4 {σ V E : Type} (w : σ) (keys : List String) :
    Inv4 keys [] (start4 w keys : Sys4 σ V E) := by
  have hstart : ∀ (i : Nat) (c : Get4 V E),
      (start4 w keys : Sys4 σ V E).calls[i]? = some c → ∃ k, c = Get4.start k := by
    intro i c h
    simp only [start4, List.getElem?_map] at h
    cases hk : keys[i]? with
    | none => rw [hk] at h; cases h
    | some k => rw [hk] at h; cases h; exact ⟨k, rfl⟩
  constructor
  · simp [start4, List.map_map, Function.comp_def, Get4.key]
  · intro k p h; simp [start4, New4, mapEmpty] at h
  · intro k k1 p h; simp [start4, New4, mapEmpty] at h
  · intro i k p h
    obtain ⟨k1, hk⟩ := hstart i _ h
    cases hk
  · intro i k p h
    obtain ⟨k1, hk⟩ := hstart i _ h
    cases hk
  · intro i k r b h
    obtain ⟨k1, hk⟩ := hstart i _ h
    cases hk
  · intro i j ci cj h _ hf
    obtain ⟨k1, hk⟩ := hstart i _ h
    subst hk
    cases hf
  · intro k p h; simp [start4, New4, mapEmpty] at h
  · intro k p ent h; simp [start4, New4, mapEmpty] at h
  · intro k _; rfl
  · intro k p ent h; simp [start4, New4, mapEmpty] at h
  · intro k p ent h; simp [start4, New4, mapEmpty] at h
  · intro j hj; cases hj
  · intro i c h hf
    obtain ⟨k1, hk⟩ := hstart i _ h
    subst hk
    cases hf

theorem Inv4_key {σ V E : Type} {keys : List String} {sched : List Nat} {s : Sys4 σ V E}
    (h : Inv4 keys sched s) (i : Nat) (c : Get4 V E) (hc : s.calls[i]? = some c) :
    keys[i]? = some c.key := by
  rw [← h.keys_eq, List.getElem?_map, hc]
  rfl

theorem Inv4_taken_cache {σ V E : Type} {keys : List String} {sched : List Nat}
    {s : Sys4 σ V E} (h : Inv4 keys sched s) (i : Nat) (c : Get4 V E)
    (hc : s.calls[i]? = some c) (ht : c.taken = true) : s.memo.cache c.key ≠ none := by
  cases c with
  | start k => cases ht
  | computing k p =>
    rw [show (Get4.computing k p : Get4 V E).key = k from rfl, (h.comp_ok i k p hc).1]
    simp
  | waiting k p => rw [show (Get4.waiting k p : Get4 V E).key = k from rfl, h.wait_ok i k p hc]; simp
  | returned k r b =>
    obtain ⟨p, hp, _⟩ := h.ret_ok i k r b hc
    rw [show (Get4.returned k r b : Get4 V E).key = k from rfl, hp]
    simp

theorem Inv4_first_taken {V E : Type} (c : Get4 V E) (h : c.first = true) : c.taken = true := by
  cases c <;> first | rfl | cases h

theorem Inv4_update {σ V E : Type} {keys : List String} {sched : List Nat} {s : Sys4 σ V E}
    (h : Inv4 keys sched s) (i : Nat) (old new : Get4 V E) (hi : s.calls[i]? = some old)
    (hkey : new.key = old.key) (htaken : new.taken = true)
    (hof : old.first = false) (hnf : new.first = false)
    (hwait : ∀ k p, new = Get4.waiting k p → s.memo.cache k = some p)
    (hret : ∀ k r b, new = Get4.returned k r b →
      ∃ p, s.memo.cache k = some p ∧ s.memo.heap[p]? = some ⟨r, true⟩) :
    Inv4 keys (sched ++ [i]) { s with calls := s.calls.set i new } := by
  constructor
  · show (s.calls.set i new).map Get4.key = keys
    rw [map_set_same Get4.key hi hkey]
    exact h.keys_eq
  · exact h.cache_lt
  · exact h.cache_inj
  · intro j k p hj
    rcases getElem?_set_cases hi hj with ⟨_, hc⟩ | ⟨_, hj1⟩
    · rw [← hc] at hnf
      cases hnf
    · exact h.comp_ok j k p hj1
  · intro j k p hj
    rcases getElem?_set_cases hi hj with ⟨_, hc⟩ | ⟨_, hj1⟩
    · exact hwait k p hc.symm
    · exact h.wait_ok j k p hj1
  · intro j k r b hj
    rcases getElem?_set_cases hi hj with ⟨_, hc⟩ | ⟨_, hj1⟩
    · exact hret k r b hc.symm
    · exact h.ret_ok j k r b hj1
  · intro j1 j2 c1 c2 h1 h2 f1 f2 hk
    rcases getElem?_set_cases hi h1 with ⟨_, hc⟩ | ⟨_, h1'⟩
    · rw [hc, hnf] at f1
      cases f1
    · rcases getElem?_set_cases hi h2 with ⟨_, hc⟩ | ⟨_, h2'⟩
      · rw [hc, hnf] at f2
        cases f2
      · exact h.first_once j1 j2 c1 c2 h1' h2' f1 f2 hk
  · intro k p hk
    obtain ⟨j, c, hj, hck, hcf⟩ := h.creator k p hk
    have hne : j ≠ i := by
      intro he
      subst he
      rw [hi] at hj
      cases hj
      rw [hof] at hcf
      cases hcf
    exact ⟨j, c, (getElem?_set_off new hne).trans hj, hck, hcf⟩
  · intro k p ent a b c
    obtain ⟨j, hj⟩ := h.unready_comp k p ent a b c
    have hne : j ≠ i := by
      intro he
      subst he
      rw [hi] at hj
      cases hj
      cases hof
    exact ⟨j, (getElem?_set_off new hne).trans hj⟩
  · exact h.log_none
  · exact h.log_unready
  · exact h.log_ready
  · intro j hj c hc
    rcases getElem?_set_cases hi hc with ⟨_, hc1⟩ | ⟨hne, hc1⟩
    · rw [hc1]
      exact htaken
    · simp only [List.mem_append, List.mem_singleton] at hj
      rcases hj with hj | hj
      · exact h.sched_taken j hj c hc1
      · exact absurd hj hne
  · intro j c hc hf
    rcases getElem?_set_cases hi hc with ⟨_, hc1⟩ | ⟨_, hc1⟩
    · rw [hc1, hnf] at hf
      cases hf
    · exact firstLock_append keys sched [i] c.key j (h.lock_first j c hc1 hf)

theorem Inv4_skip {σ V E : Type} {keys : List String} {sched : List Nat} {s : Sys4 σ V E}
    (h : Inv4 keys sched s) (i : Nat)
    (hi : ∀ c, s.calls[i]? = some c → c.taken = true) : Inv4 keys (sched ++ [i]) s := by
  refine ⟨h.keys_eq, h.cache_lt, h.cache_inj, h.comp_ok, h.wait_ok, h.ret_ok, h.first_once,
    h.creator, h.unready_comp, h.log_none, h.log_unready, h.log_ready, ?_, ?_⟩
  · intro j hj c hc
    simp only [List.mem_append, List.mem_singleton] at hj
    rcases hj with hj | hj
    · exact h.sched_taken j hj c hc
    · subst hj
      exact hi c hc
  · intro j c hc hf
    exact firstLock_append keys sched [i] c.key j (h.lock_first j c hc hf)

theorem Inv4_insert {σ V E : Type} {keys : List String} {sched : List Nat} {s : Sys4 σ V E}
    (h : Inv4 keys sched s) (i : Nat) (k : String) (hi : s.calls[i]? = some (Get4.start k))
    (hc : s.memo.cache k = none) :
    Inv4 keys (sched ++ [i])
      { memo := { s.memo with cache := mapSet s.memo.cache k s.memo.heap.length,
                              heap := s.memo.heap ++ [entry.fresh] },
        calls := s.calls.set i (Get4.computing k s.memo.heap.length) } := by
  have hne : ∀ k1 p, s.memo.cache k1 = some p → k1 ≠ k := by
    intro k1 p hk he
    rw [he, hc] at hk
    cases hk
  have hold : ∀ k1 p, s.memo.cache k1 = some p →
      mapSet s.memo.cache k s.memo.heap.length k1 = some p :=
    fun k1 p hk => (mapSet_other _ _ _ _ (hne k1 p hk)).trans hk
  have hback : ∀ k1 p, k1 ≠ k → mapSet s.memo.cache k s.memo.heap.length k1 = some p →
      s.memo.cache k1 = some p :=
    fun k1 p he hk => (mapSet_other _ _ _ _ he).symm.trans hk
  have hheap : ∀ (p : Nat) ent, s.memo.heap[p]? = some ent →
      (s.memo.heap ++ [entry.fresh])[p]? = some ent :=
    fun p ent hp => (getElem?_append_old _ (getElem?_some_lt hp)).trans hp
  have hheapb : ∀ (p : Nat) ent, p < s.memo.heap.length →
      (s.memo.heap ++ [entry.fresh])[p]? = some ent → s.memo.heap[p]? = some ent :=
    fun p ent hp hq => (getElem?_append_old _ hp).symm.trans hq
  constructor
  · show (s.calls.set i _).map Get4.key = keys
    rw [map_set_same Get4.key (a := Get4.computing k s.memo.heap.length) hi rfl]
    exact h.keys_eq
  · intro k1 p hk
    show p < (s.memo.heap ++ [entry.fresh]).length
    rw [List.length_append]
    exact mapSet_fresh_lt _ _ _ h.cache_lt k1 p hk
  · exact mapSet_fresh_inj _ _ _ h.cache_lt h.cache_inj
  · intro j k1 p hj
    show mapSet s.memo.cache k s.memo.heap.length k1 = some p
      ∧ ∃ ent, (s.memo.heap ++ [entry.fresh])[p]? = some ent ∧ ent.ready = false
    rcases getElem?_set_cases hi hj with ⟨_, hcj⟩ | ⟨_, hj1⟩
    · cases hcj
      exact ⟨mapSet_same _ _ _, entry.fresh, List.getElem?_concat_length _ _, rfl⟩
    · obtain ⟨a, ent, b, c⟩ := h.comp_ok j k1 p hj1
      exact ⟨hold k1 p a, ent, hheap p ent b, c⟩
  · intro j k1 p hj
    rcases getElem?_set_cases hi hj with ⟨_, hcj⟩ | ⟨_, hj1⟩
    · cases hcj
    · exact hold k1 p (h.wait_ok j k1 p hj1)
  · intro j k1 r b hj
    rcases getElem?_set_cases hi hj with ⟨_, hcj⟩ | ⟨_, hj1⟩
    · cases hcj
    · obtain ⟨p, a, b1⟩ := h.ret_ok j k1 r b hj1
      exact ⟨p, hold k1 p a, hheap p _ b1⟩
  · intro j1 j2 c1 c2 h1 h2 f1 f2 hk
    rcases getElem?_set_cases hi h1 with ⟨e1, hc1⟩ | ⟨n1, h1'⟩
    · rcases getElem?_set_cases hi h2 with ⟨e2, _⟩ | ⟨_, h2'⟩
      · rw [e1, e2]
      · have := Inv4_taken_cache h j2 c2 h2' (Inv4_first_taken c2 f2)
        rw [← hk, hc1] at this
        exact absurd hc this
    · rcases getElem?_set_cases hi h2 with ⟨_, hc2⟩ | ⟨_, h2'⟩
      · have := Inv4_taken_cache h j1 c1 h1' (Inv4_first_taken c1 f1)
        rw [hk, hc2] at this
        exact absurd hc this
      · exact h.first_once j1 j2 c1 c2 h1' h2' f1 f2 hk
  · intro k1 p hk
    by_cases he : k1 = k
    · subst he
      exact ⟨i, Get4.computing k1 s.memo.heap.length, getElem?_set_at _ hi, rfl, rfl⟩
    · obtain ⟨j, c, hj, hck, hcf⟩ := h.creator k1 p (hback k1 p he hk)
      have hji : j ≠ i := by
        intro hje
        subst hje
        rw [hi] at hj
        cases hj
        cases hcf
      exact ⟨j, c, (getElem?_set_off _ hji).trans hj, hck, hcf⟩
  · intro k1 p ent a b c
    have a : mapSet s.memo.cache k s.memo.heap.length k1 = some p := a
    have b : (s.memo.heap ++ [entry.fresh])[p]? = some ent := b
    by_cases he : k1 = k
    · subst he
      rw [mapSet_same] at a
      cases a
      exact ⟨i, getElem?_set_at _ hi⟩
    · have a1 := hback k1 p he a
      obtain ⟨j, hj⟩ := h.unready_comp k1 p ent a1 (hheapb p ent (h.cache_lt k1 p a1) b) c
      have hji : j ≠ i := by
        intro hje
        subst hje
        rw [hi] at hj
        cases hj
      exact ⟨j, (getElem?_set_off _ hji).trans hj⟩
  · intro k1 a
    have a : mapSet s.memo.cache k s.memo.heap.length k1 = none := a
    by_cases he : k1 = k
    · subst he
      exact h.log_none _ hc
    · rw [mapSet_other _ _ _ _ he] at a
      exact h.log_none k1 a
  · intro k1 p ent a b c
    have a : mapSet s.memo.cache k s.memo.heap.length k1 = some p := a
    have b : (s.memo.heap ++ [entry.fresh])[p]? = some ent := b
    by_cases he : k1 = k
    · subst he
      exact h.log_none _ hc
    · have a1 := hback k1 p he a
      exact h.log_unready k1 p ent a1 (hheapb p ent (h.cache_lt k1 p a1) b) c
  · intro k1 p ent a b c
    have a : mapSet s.memo.cache k s.memo.heap.length k1 = some p := a
    have b : (s.memo.heap ++ [entry.fresh])[p]? = some ent := b
    by_cases he : k1 = k
    · subst he
      rw [mapSet_same] at a
      cases a
      rw [List.getElem?_concat_length] at b
      cases b
      cases c
    · have a1 := hback k1 p he a
      exact h.log_ready k1 p ent a1 (hheapb p ent (h.cache_lt k1 p a1) b) c
  · intro j hj c hcj
    rcases getElem?_set_cases hi hcj with ⟨_, hc1⟩ | ⟨hne1, hc1⟩
    · rw [hc1]
      rfl
    · simp only [List.mem_append, List.mem_singleton] at hj
      rcases hj with hj | hj
      · exact h.sched_taken j hj c hc1
      · exact absurd hj hne1
  · intro j c hcj hf
    rcases getElem?_set_cases hi hcj with ⟨hji, hc1⟩ | ⟨_, hc1⟩
    · subst hji
      subst hc1
      refine firstLock_new keys sched k j ?_ (Inv4_key h j _ hi)
      intro j1 hj1 hk1
      have hlen : j1 < s.calls.length := by
        have : j1 < keys.length := getElem?_some_lt hk1
        rw [← h.keys_eq, List.length_map] at this
        exact this
      have hcj1 : s.calls[j1]? = some s.calls[j1] := List.getElem?_eq_getElem hlen
      have hkey := Inv4_key h j1 _ hcj1
      rw [hk1] at hkey
      cases hkey
      exact Inv4_taken_cache h j1 _ hcj1 (h.sched_taken j1 hj1 _ hcj1) hc
    · exact firstLock_append keys sched [i] c.key j (h.lock_first j c hc1 hf)

theorem Inv4_compute {σ V E : Type} {keys : List String} {sched : List Nat} {s : Sys4 σ V E}
    (f : Func σ V E) (h : Inv4 keys sched s) (i : Nat) (k : String) (p : Nat)
    (hi : s.calls[i]? = some (Get4.computing k p)) :
    Inv4 keys (sched ++ [i])
      { memo := { s.memo with heap := s.memo.heap.set p ⟨(invoke f k s.memo.env).1, true⟩,
                              env := (invoke f k s.memo.env).2 },
        calls := s.calls.set i (Get4.returned k (invoke f k s.memo.env).1 true) } := by
  obtain ⟨hck, ent, hent, hrdy⟩ := h.comp_ok i k p hi
  have hplt : p < s.memo.heap.length := getElem?_some_lt hent
  have hkey : ∀ k1, s.memo.cache k1 = some p → k1 = k := fun k1 hk1 => h.cache_inj k1 k p hk1 hck
  have hset : ∀ (q : Nat), q ≠ p → ∀ x : entry V E,
      (s.memo.heap.set p x)[q]? = s.memo.heap[q]? :=
    fun q hq x => getElem?_set_off x hq
  constructor
  · show (s.calls.set i _).map Get4.key = keys
    rw [map_set_same Get4.key (a := Get4.returned k (invoke f k s.memo.env).1 true) hi rfl]
    exact h.keys_eq
  · intro k1 q hk
    show q < (s.memo.heap.set p _).length
    rw [List.length_set]
    exact h.cache_lt k1 q hk
  · exact h.cache_inj
  · intro j k1 q hj
    rcases getElem?_set_cases hi hj with ⟨_, hcj⟩ | ⟨hne, hj1⟩
    · cases hcj
    · obtain ⟨a, ent1, b, c⟩ := h.comp_ok j k1 q hj1
      have hqp : q ≠ p := by
        intro he
        subst he
        have := hkey k1 a
        subst this
        exact hne (h.first_once j i _ _ hj1 hi rfl rfl rfl)
      exact ⟨a, ent1, (hset q hqp _).trans b, c⟩
  · intro j k1 q hj
    rcases getElem?_set_cases hi hj with ⟨_, hcj⟩ | ⟨_, hj1⟩
    · cases hcj
    · exact h.wait_ok j k1 q hj1
  · intro j k1 r b hj
    rcases getElem?_set_cases hi hj with ⟨_, hcj⟩ | ⟨_, hj1⟩
    · cases hcj
      exact ⟨p, hck, List.getElem?_set_self hplt⟩
    · obtain ⟨q, a, b1⟩ := h.ret_ok j k1 r b hj1
      have hqp : q ≠ p := by
        intro he
        subst he
        rw [hent] at b1
        cases b1
        cases hrdy
      exact ⟨q, a, (hset q hqp _).trans b1⟩
  · intro j1 j2 c1 c2 h1 h2 f1 f2 hk
    rcases getElem?_set_cases hi h1 with ⟨e1, hc1⟩ | ⟨n1, h1'⟩
    · rcases getElem?_set_cases hi h2 with ⟨e2, _⟩ | ⟨_, h2'⟩
      · rw [e1, e2]
      · rw [e1]
        refine h.first_once i j2 _ c2 hi h2' rfl f2 ?_
        rw [← hk, hc1]
        rfl
    · rcases getElem?_set_cases hi h2 with ⟨e2, hc2⟩ | ⟨_, h2'⟩
      · rw [e2]
        refine h.first_once j1 i c1 _ h1' hi f1 rfl ?_
        rw [hk, hc2]
        rfl
      · exact h.first_once j1 j2 c1 c2 h1' h2' f1 f2 hk
  · intro k1 q hk
    obtain ⟨j, c, hj, hckk, hcf⟩ := h.creator k1 q hk
    by_cases hji : j = i
    · subst hji
      rw [hi] at hj
      cases hj
      exact ⟨j, _, getElem?_set_at _ hi, hckk, rfl⟩
    · exact ⟨j, c, (getElem?_set_off _ hji).trans hj, hckk, hcf⟩
  · intro k1 q ent1 a b c
    have b : (s.memo.heap.set p _)[q]? = some ent1 := b
    have hqp : q ≠ p := by
      intro he
      subst he
      rw [List.getElem?_set_self hplt] at b
      cases b
      cases c
    rw [hset q hqp] at b
    obtain ⟨j, hj⟩ := h.unready_comp k1 q ent1 a b c
    have hji : j ≠ i := by
      intro hje
      subst hje
      rw [hi] at hj
      cases hj
      exact hqp rfl
    exact ⟨j, (getElem?_set_off _ hji).trans hj⟩
  · intro k1 a
    show logFor k1 (invoke f k s.memo.env).2.log = []
    have hne : k ≠ k1 := by
      intro he
      subst he
      rw [hck] at a
      cases a
    rw [invoke_log, logFor_append, logFor_single_other _ _ _ hne, h.log_none k1 a]
    rfl
  · intro k1 q ent1 a b c
    show logFor k1 (invoke f k s.memo.env).2.log = []
    have b : (s.memo.heap.set p _)[q]? = some ent1 := b
    have hqp : q ≠ p := by
      intro he
      subst he
      rw [List.getElem?_set_self hplt] at b
      cases b
      cases c
    rw [hset q hqp] at b
    have hne : k ≠ k1 := by
      intro he
      subst he
      rw [hck] at a
      cases a
      exact hqp rfl
    rw [invoke_log, logFor_append, logFor_single_other _ _ _ hne, h.log_unready k1 q ent1 a b c]
    rfl
  · intro k1 q ent1 a b c
    show logFor k1 (invoke f k s.memo.env).2.log = [(k1, ent1.res)]
    have b : (s.memo.heap.set p _)[q]? = some ent1 := b
    by_cases hqp : q = p
    · subst hqp
      have := hkey k1 a
      subst this
      rw [List.getElem?_set_self hplt] at b
      cases b
      rw [invoke_log, logFor_append, logFor_single_same, h.log_unready k1 q ent hck hent hrdy]
      rfl
    · rw [hset q hqp] at b
      have hne : k ≠ k1 := by
        intro he
        subst he
        rw [hck] at a
        cases a
        exact hqp rfl
      rw [invoke_log, logFor_append, logFor_single_other _ _ _ hne, h.log_ready k1 q ent1 a b c]
      rfl
  · intro j hj c hcj
    rcases getElem?_set_cases hi hcj with ⟨_, hc1⟩ | ⟨hne1, hc1⟩
    · rw [hc1]
      rfl
    · simp only [List.mem_append, List.mem_singleton] at hj
      rcases hj with hj | hj
      · exact h.sched_taken j hj c hc1
      · exact absurd hj hne1
  · intro j c hcj hf
    rcases getElem?_set_cases hi hcj with ⟨hji, hc1⟩ | ⟨_, hc1⟩
    · subst hji
      subst hc1
      exact firstLock_append keys sched [j] k j (h.lock_first j _ hi rfl)
    · exact firstLock_append keys sched [i] c.key j (h.lock_first j c hc1 hf)

/-! ## Scheme 4: steps, schedules, progress and termination -/

theorem step4_inv {σ V E : Type} {keys : List String} {sched : List Nat} {s : Sys4 σ V E}
    (f : Func σ V E) (h : Inv4 keys sched s) (i : Nat) :
    (∃ s1, step4 f i s = Outcome.ok s1 ∧ Inv4 keys (sched ++ [i]) s1)
    ∨ (step4 f i s = Outcome.blocked ∧ Inv4 keys (sched ++ [i]) s) := by
  cases hi : s.calls[i]? with
  | none =>
    right
    refine ⟨by simp [step4, hi], Inv4_skip h i ?_⟩
    intro c hc
    rw [hi] at hc
    cases hc
  | some c =>
    cases c with
    | start k =>
      left
      cases hc : s.memo.cache k with
      | none =>
        exact ⟨_, by simp only [step4, hi, hc], Inv4_insert h i k hi hc⟩
      | some p =>
        refine ⟨{ s with calls := s.calls.set i (Get4.waiting k p) },
          by simp only [step4, hi, hc], ?_⟩
        refine Inv4_update h i _ (Get4.waiting k p) hi rfl rfl rfl rfl ?_ ?_
        · intro k1 p1 he
          cases he
          exact hc
        · intro k1 r b he
          cases he
    | computing k p =>
      left
      obtain ⟨_, ent, hent, hrdy⟩ := h.comp_ok i k p hi
      exact ⟨_, by simp only [step4, hi, hent, hrdy]; rfl, Inv4_compute f h i k p hi⟩
    | waiting k p =>
      have hck := h.wait_ok i k p hi
      have hlt := h.cache_lt k p hck
      have hent : s.memo.heap[p]? = some s.memo.heap[p] := List.getElem?_eq_getElem hlt
      cases hr : (s.memo.heap[p]).ready with
      | false =>
        right
        refine ⟨by simp [step4, hi, hent, hr], Inv4_skip h i ?_⟩
        intro c hc
        rw [hi] at hc
        cases hc
        rfl
      | true =>
        left
        refine ⟨_, by simp only [step4, hi, hent, hr]; rfl, ?_⟩
        refine Inv4_update h i _ (Get4.returned k (s.memo.heap[p]).res false) hi rfl rfl rfl rfl
          ?_ ?_
        · intro k1 p1 he
          cases he
        · intro k1 r b he
          cases he
          refine ⟨p, hck, ?_⟩
          rw [hent]
          cases hp : s.memo.heap[p] with
          | mk res ready =>
            rw [hp] at hr
            cases hr
            rfl
    | returned k r b =>
      right
      refine ⟨by simp [step4, hi], Inv4_skip h i ?_⟩
      intro c hc
      rw [hi] at hc
      cases hc
      rfl

theorem run4_inv {σ V E : Type} (f : Func σ V E) (keys : List String) (sch : List Nat) :
    ∀ (sched : List Nat) (s : Sys4 σ V E), Inv4 keys sched s →
      ∃ t, run4 f sch s = Outcome.ok t ∧ Inv4 keys (sched ++ sch) t := by
  induction sch with
  | nil =>
    intro sched s h
    exact ⟨s, rfl, by simpa using h⟩
  | cons i rest ih =>
    intro sched s h
    rcases step4_inv f h i with ⟨s1, hs, h1⟩ | ⟨hs, h1⟩
    · obtain ⟨t, ht, hinv⟩ := ih (sched ++ [i]) s1 h1
      refine ⟨t, ?_, by simpa using hinv⟩
      simp only [run4, hs]
      exact ht
    · obtain ⟨t, ht, hinv⟩ := ih (sched ++ [i]) s h1
      refine ⟨t, ?_, by simpa using hinv⟩
      simp only [run4, hs]
      exact ht

theorem step4_progress {σ V E : Type} {keys : List String} {sched : List Nat}
    {s : Sys4 σ V E} (f : Func σ V E) (h : Inv4 keys sched s) (i : Nat) (c : Get4 V E)
    (hi : s.calls[i]? = some c) (hc : c.done = false) :
    ∃ j s1, step4 f j s = Outcome.ok s1 := by
  have hcomp : ∀ (j : Nat) k p, s.calls[j]? = some (Get4.computing k p) →
      ∃ j s1, step4 f j s = Outcome.ok s1 := by
    intro j k p hj
    obtain ⟨_, ent, hent, hrdy⟩ := h.comp_ok j k p hj
    exact ⟨j, _, by simp only [step4, hj, hent, hrdy]; rfl⟩
  cases c with
  | start k =>
    cases hck : s.memo.cache k with
    | none => exact ⟨i, _, by simp only [step4, hi, hck]; rfl⟩
    | some p => exact ⟨i, _, by simp only [step4, hi, hck]; rfl⟩
  | computing k p => exact hcomp i k p hi
  | waiting k p =>
    have hck := h.wait_ok i k p hi
    have hlt := h.cache_lt k p hck
    have hent : s.memo.heap[p]? = some s.memo.heap[p] := List.getElem?_eq_getElem hlt
    cases hr : (s.memo.heap[p]).ready with
    | false =>
      obtain ⟨j, hj⟩ := h.unready_comp k p _ hck hent hr
      exact hcomp j k p hj
    | true => exact ⟨i, _, by simp only [step4, hi, hent, hr]; rfl⟩
  | returned k r b => cases hc

theorem step4_work {σ V E : Type} (f : Func σ V E) (i : Nat) (s s1 : Sys4 σ V E)
    (hs : step4 f i s = Outcome.ok s1) : s1.work < s.work := by
  unfold Sys4.work
  cases hi : s.calls[i]? with
  | none => simp [step4, hi] at hs
  | some c =>
    cases c with
    | start k =>
      cases hck : s.memo.cache k with
      | none =>
        simp only [step4, hi, hck, Outcome.ok.injEq] at hs
        subst hs
        have := sum_map_set Get4.work (a := Get4.computing k s.memo.heap.length) hi
        simp only [Get4.work] at this ⊢
        omega
      | some p =>
        simp only [step4, hi, hck, Outcome.ok.injEq] at hs
        subst hs
        have := sum_map_set Get4.work (a := Get4.waiting k p) hi
        simp only [Get4.work] at this ⊢
        omega
    | computing k p =>
      simp only [step4, hi] at hs
      split at hs
      · cases hs
      · split at hs
        · cases hs
        · cases hs
          have := sum_map_set Get4.work
            (a := Get4.returned k (invoke f k s.memo.env).1 true) hi
          simp only [Get4.work] at this ⊢
          omega
    | waiting k p =>
      simp only [step4, hi] at hs
      split at hs
      · cases hs
      · rename_i ent _
        split at hs
        · cases hs
          have := sum_map_set Get4.work (a := Get4.returned k ent.res false) hi
          simp only [Get4.work] at this ⊢
          omega
        · cases hs
    | returned k r b => simp [step4, hi] at hs

/-! ## Scheme 4: one computation per key -/

theorem Inv4_logFor {σ V E : Type} {keys : List String} {sched : List Nat} {s : Sys4 σ V E}
    (h : Inv4 keys sched s) (k : String) :
    logFor k s.memo.env.log = [] ∨
      ∃ p res, s.memo.cache k = some p ∧ s.memo.heap[p]? = some ⟨res, true⟩
        ∧ logFor k s.memo.env.log = [(k, res)] := by
  cases hc : s.memo.cache k with
  | none => exact Or.inl (h.log_none k hc)
  | some p =>
    have hlt := h.cache_lt k p hc
    have hent : s.memo.heap[p]? = some s.memo.heap[p] := List.getElem?_eq_getElem hlt
    cases hr : (s.memo.heap[p]).ready with
    | false => exact Or.inl (h.log_unready k p _ hc hent hr)
    | true =>
      refine Or.inr ⟨p, (s.memo.heap[p]).res, rfl, ?_, h.log_ready k p _ hc hent hr⟩
      rw [hent]
      cases hp : s.memo.heap[p] with
      | mk res ready =>
        rw [hp] at hr
        cases hr
        rfl

theorem Inv4_returned_log {σ V E : Type} {keys : List String} {sched : List Nat}
    {s : Sys4 σ V E} (h : Inv4 keys sched s) (i : Nat) (k : String) (r : result V E) (b : Bool)
    (hi : s.calls[i]? = some (Get4.returned k r b)) :
    logFor k s.memo.env.log = [(k, r)] := by
  obtain ⟨p, hc, hent⟩ := h.ret_ok i k r b hi
  exact h.log_ready k p _ hc hent rfl

theorem Inv4_invoker {σ V E : Type} {keys : List String} {sched : List Nat}
    {s : Sys4 σ V E} (h : Inv4 keys sched s) (k : String) (hk : k ∈ s.memo.env.calls) :
    k ∈ keys ∧ ∃ (i : Nat) (r : result V E), s.calls[i]? = some (Get4.returned k r true) := by
  have hpos : 0 < s.memo.env.calls.count k := List.count_pos_iff.2 hk
  rw [calls_count] at hpos
  rcases Inv4_logFor h k with h1 | ⟨p, res, hc, hent, _⟩
  · rw [h1] at hpos
    cases hpos
  · obtain ⟨j, c, hj, hck, hcf⟩ := h.creator k p hc
    have hkeys : k ∈ keys := by
      have := Inv4_key h j c hj
      rw [hck] at this
      exact List.getElem?_mem this
    refine ⟨hkeys, ?_⟩
    cases c with
    | start k1 => cases hcf
    | waiting k1 p1 => cases hcf
    | computing k1 p1 =>
      have hk1 : k1 = k := hck
      subst hk1
      obtain ⟨a, ent, b, c⟩ := h.comp_ok j k1 p1 hj
      rw [hc] at a
      cases a
      rw [hent] at b
      cases b
      cases c
    | returned k1 r b =>
      have hk1 : k1 = k := hck
      subst hk1
      have hb : b = true := hcf
      subst hb
      exact ⟨j, r, hj⟩

/-- C9: with the critical section of `Memo4.Get` one atomic step, any number of
concurrent `Get` calls on a new `Memo4` run under every schedule without panic to a state
in which: `f` has been invoked at most once for every key, and only for keys asked for;
for every key at most one call took the first branch (found no entry, inserted it, invokes
`f`), and that call is the first call for the key that the schedule let move, the first
to take the lock; every other call that has been through the critical section found the
entry that call inserted, and a waiting call waits on the entry of its key; `f` was invoked
for a key by the call that took the first branch; every call that has returned returned
what the only invocation of `f` for its key returned, so calls with one key return the
same pair; some call can move as long as one has not returned, every step uses up work,
and once all calls have returned `f` has been invoked exactly once for every key asked
for. -/
theorem Memo4_single_computation {σ V E : Type} (f : Func σ V E) (w : σ)
    (keys : List String) (sched : List Nat) :
    ∃ s, run4 f sched (start4 w keys) = Outcome.ok s
      ∧ s.calls.map Get4.key = keys
      ∧ (∀ k, s.memo.env.calls.count k ≤ 1)
      ∧ (∀ k, k ∈ s.memo.env.calls → k ∈ keys)
      ∧ (∀ (i j : Nat) ci cj, s.calls[i]? = some ci → s.calls[j]? = some cj →
          ci.first = true → cj.first = true → ci.key = cj.key → i = j)
      ∧ (∀ (i : Nat) c, s.calls[i]? = some c → c.first = true →
          firstLock keys sched c.key = some i)
      ∧ (∀ (i : Nat) c, s.calls[i]? = some c → c.taken = true →
          ∃ (j : Nat) (cj : Get4 V E) (p : Nat), s.calls[j]? = some cj ∧ cj.key = c.key
            ∧ cj.first = true ∧ s.memo.cache c.key = some p)
      ∧ (∀ (i : Nat) k p, s.calls[i]? = some (Get4.waiting k p) → s.memo.cache k = some p)
      ∧ (∀ k, k ∈ s.memo.env.calls →
          ∃ (i : Nat) (r : result V E), s.calls[i]? = some (Get4.returned k r true))
      ∧ (∀ (i : Nat) k r b, s.calls[i]? = some (Get4.returned k r b) →
          logFor k s.memo.env.log = [(k, r)])
      ∧ (∀ (i j : Nat) k r1 r2 b1 b2, s.calls[i]? = some (Get4.returned k r1 b1) →
          s.calls[j]? = some (Get4.returned k r2 b2) → r1 = r2)
      ∧ (∀ (i : Nat) c, s.calls[i]? = some c → c.done = false →
          ∃ j s1, step4 f j s = Outcome.ok s1)
      ∧ (∀ j s1, step4 f j s = Outcome.ok s1 → s1.work < s.work)
      ∧ ((∀ (i : Nat) c, s.calls[i]? = some c → c.done = true) →
          ∀ k, s.memo.env.calls.count k = if k ∈ keys then 1 else 0) := by
  obtain ⟨s, hs, hinv⟩ := run4_inv f keys sched [] (start4 w keys) (Inv4_start4 w keys)
  have h : Inv4 keys sched s := by simpa using hinv
  refine ⟨s, hs, h.keys_eq, ?_, fun k hk => (Inv4_invoker h k hk).1, h.first_once,
    h.lock_first, ?_, h.wait_ok, fun k hk => (Inv4_invoker h k hk).2,
    Inv4_returned_log h, ?_, step4_progress f h, fun j s1 hj => step4_work f j s s1 hj, ?_⟩
  · intro k
    rw [calls_count]
    rcases Inv4_logFor h k with h1 | ⟨p, res, _, _, h1⟩ <;> simp [h1]
  · intro i c hi ht
    have hne := Inv4_taken_cache h i c hi ht
    cases hc : s.memo.cache c.key with
    | none => exact absurd hc hne
    | some p =>
      obtain ⟨j, cj, hj, hk, hf⟩ := h.creator c.key p hc
      exact ⟨j, cj, p, hj, hk, hf, rfl⟩
  · intro i j k r1 r2 b1 b2 hi hj
    have h1 := Inv4_returned_log h i k r1 b1 hi
    have h2 := Inv4_returned_log h j k r2 b2 hj
    rw [h1] at h2
    simp only [List.cons.injEq, Prod.mk.injEq, true_and, and_true] at h2
    exact h2
  · intro hdone k
    by_cases hk : k ∈ keys
    · rw [if_pos hk, calls_count]
      obtain ⟨i, hi⟩ := List.getElem?_of_mem hk
      have hlen : i < s.calls.length := by
        have : i < keys.length := getElem?_some_lt hi
        rw [← h.keys_eq, List.length_map] at this
        exact this
      have hci : s.calls[i]? = some s.calls[i] := List.getElem?_eq_getElem hlen
      have hkey := Inv4_key h i _ hci
      rw [hi] at hkey
      have hd := hdone i _ hci
      cases hc : s.calls[i] with
      | start k1 => rw [hc] at hd; cases hd
      | computing k1 p => rw [hc] at hd; cases hd
      | waiting k1 p => rw [hc] at hd; cases hd
      | returned k1 r b =>
        rw [hc] at hkey hci
        cases hkey
        show (logFor k1 s.memo.env.log).length = 1
        rw [Inv4_returned_log h i _ r b hci]
        rfl
    · rw [if_neg hk, List.count_eq_zero]
      exact fun hm => hk (Inv4_invoker h k hm).1

theorem Memo4_single_computation_witness :
    run4 countFunc abSched4 (start4 0 ["a", "a", "b"]) = Outcome.ok abState4
    ∧ firstLock ["a", "a", "b"] abSched4 "a" = some 1
    ∧ abState4.calls[1]? = some (Get4.returned "a" ⟨some 0, none⟩ true)
    ∧ abState4.calls[0]? = some (Get4.returned "a" ⟨some 0, none⟩ false)
    ∧ abState4.memo.env.calls.count "a" = 1
    ∧ abState4.memo.env.calls.count "b" = 1 := by
  obtain ⟨s, hs, _, _, _, _, hfirst, _, _, _, _, _, _, _, hdone⟩ :=
    Memo4_single_computation countFunc 0 ["a", "a", "b"] abSched4
  have hrun : run4 countFunc abSched4 (start4 0 ["a", "a", "b"]) = Outcome.ok abState4 := rfl
  rw [hrun] at hs
  cases hs
  have hall : ∀ (i : Nat) (c : Get4 Nat String), abState4.calls[i]? = some c → c.done = true := by
    intro i c hc
    have hm := List.getElem?_mem hc
    simp only [abState4, List.mem_cons, List.mem_singleton, List.not_mem_nil, or_false] at hm
    rcases hm with hm | hm | hm <;> rw [hm] <;> rfl
  exact ⟨hrun, hfirst 1 _ rfl rfl, rfl, rfl, by rw [hdone hall "a"]; rfl,
    by rw [hdone hall "b"]; rfl⟩

/-! ## Scheme 5: the Owner's step -/

theorem serverBody_absent {σ V E : Type} (req : request) (s : Memo5 σ V E)
    (h : s.cache req.key = none) :
    serverBody req s =
      { s with cache := mapSet s.cache req.key s.heap.length,
               heap := s.heap ++ [entry.fresh],
               tasks := s.tasks ++ [Task.call s.heap.length req.key,
                                    Task.deliver (some s.heap.length) req.response] } := by
  simp [serverBody, h, mapSet_same]

theorem serverBody_present {σ V E : Type} (req : request) (s : Memo5 σ V E) (p : Nat)
    (h : s.cache req.key = some p) :
    serverBody req s = { s with tasks := s.tasks ++ [Task.deliver (some p) req.response] } := by
  simp [serverBody, h]

theorem Inv5_start5 {σ V E : Type} (w : σ) (reqs : List request) :
    Inv5 [] (start5 w reqs : Memo5 σ V E) := by
  constructor <;> simp [start5, New5, mapEmpty, logFor]

theorem serverBody_closed {σ V E : Type} (req : request) (s : Memo5 σ V E) :
    (serverBody req s).closed = s.closed ∧ (serverBody req s).env = s.env := by
  unfold serverBody
  split <;> exact ⟨rfl, rfl⟩

theorem Inv5_sendq {σ V E : Type} {pre : List request} {s : Memo5 σ V E} (rest : List request)
    (h : Inv5 pre s) : Inv5 pre { s with sendq := rest } :=
  ⟨h.cache_lt, h.cache_inj, h.cache_surj, h.cache_pre, h.isOpen, h.call_ok, h.call_once,
   h.unready_call,
   h.log_none, h.log_unready, h.log_ready, h.deliver_ok, h.sent_ok, h.account⟩

theorem Inv5_serverBody_present {σ V E : Type} {pre : List request} {s : Memo5 σ V E}
    (req : request) (p : Nat) (h : Inv5 pre s) (hc : s.cache req.key = some p) :
    Inv5 (pre ++ [req]) (serverBody req s) := by
  rw [serverBody_present req s p hc]
  constructor
  · exact h.cache_lt
  · exact h.cache_inj
  · exact h.cache_surj
  · intro k
    show s.cache k ≠ none ↔ _
    rw [h.cache_pre k]
    simp only [List.map_append, List.mem_append, List.map_cons, List.map_nil, List.mem_singleton]
    constructor
    · intro hk; exact Or.inl hk
    · rintro (hk | hk)
      · exact hk
      · subst hk
        exact (h.cache_pre _).1 (by simp [hc])
  · exact h.isOpen
  · intro q k hm
    refine h.call_ok q k ?_
    simp only [List.mem_append, List.mem_singleton] at hm
    rcases hm with (hm | hm) | (hm | hm)
    · exact Or.inl hm
    · cases hm
    · exact Or.inr hm
    · cases hm
  · intro q k
    show List.count _ (s.tasks ++ _) + List.count _ (s.tasks ++ _) ≤ 1
    rw [List.count_append, List.count_append]
    have := h.call_once q k
    simp
    exact this
  · intro k q ent h1 h2 h3
    exact (h.unready_call k q ent h1 h2 h3).imp (List.mem_append_left _) (List.mem_append_left _)
  · exact h.log_none
  · exact h.log_unready
  · exact h.log_ready
  · intro e c hm
    simp only [List.mem_append, List.mem_singleton] at hm
    rcases hm with hm | hm
    · obtain ⟨r, hr, hrc, hre⟩ := h.deliver_ok e c hm
      exact ⟨r, List.mem_append_left _ hr, hrc, hre⟩
    · cases hm
      exact ⟨req, by simp, rfl, hc⟩
  · intro c v hm
    obtain ⟨r, hr, hrc, hre⟩ := h.sent_ok c v hm
    exact ⟨r, List.mem_append_left _ hr, hrc, hre⟩
  · intro c
    show List.countP _ (s.tasks ++ _) + _ = _
    rw [List.countP_append, List.countP_append, ← h.account c]
    simp [List.countP_cons, Task.isDeliverTo]
    omega

theorem Inv5_serverBody_absent {σ V E : Type} {pre : List request} {s : Memo5 σ V E}
    (req : request) (h : Inv5 pre s) (hc : s.cache req.key = none) :
    Inv5 (pre ++ [req]) (serverBody req s) := by
  rw [serverBody_absent req s hc]
  have hne : ∀ k p, s.cache k = some p → k ≠ req.key := by
    intro k p hk he
    rw [he, hc] at hk
    cases hk
  constructor
  · intro k p hk
    show p < (s.heap ++ [entry.fresh]).length
    have hk : mapSet s.cache req.key s.heap.length k = some p := hk
    rw [List.length_append]
    by_cases he : k = req.key
    · subst he
      rw [show mapSet s.cache req.key s.heap.length req.key = some s.heap.length from
        mapSet_same _ _ _] at hk
      cases hk
      simp
    · have hk1 : s.cache k = some p := by rw [← mapSet_other s.cache req.key k s.heap.length he]; exact hk
      have := h.cache_lt k p hk1
      simp; omega
  · intro k k1 p hk hk1
    have hk : mapSet s.cache req.key s.heap.length k = some p := hk
    have hk1 : mapSet s.cache req.key s.heap.length k1 = some p := hk1
    by_cases he : k = req.key
    · by_cases he1 : k1 = req.key
      · rw [he, he1]
      · have hk' : mapSet s.cache req.key s.heap.length k = some s.heap.length := by
          rw [he]; exact mapSet_same _ _ _
        have hp : p = s.heap.length := by
          have : some s.heap.length = some p := hk'.symm.trans hk
          cases this; rfl
        have hk1' : s.cache k1 = some p := by
          rw [← mapSet_other s.cache req.key k1 s.heap.length he1]; exact hk1
        have := h.cache_lt k1 p hk1'
        omega
    · have hk' : s.cache k = some p := by
        rw [← mapSet_other s.cache req.key k s.heap.length he]; exact hk
      by_cases he1 : k1 = req.key
      · have hk1' : mapSet s.cache req.key s.heap.length k1 = some s.heap.length := by
          rw [he1]; exact mapSet_same _ _ _
        have hp : p = s.heap.length := by
          have : some s.heap.length = some p := hk1'.symm.trans hk1
          cases this; rfl
        have := h.cache_lt k p hk'
        omega
      · have hk1' : s.cache k1 = some p := by
          rw [← mapSet_other s.cache req.key k1 s.heap.length he1]; exact hk1
        exact h.cache_inj k k1 p hk' hk1'
  · intro p hp
    have hp' : p < s.heap.length + 1 := by
      have : p < (s.heap ++ [entry.fresh]).length := hp
      simpa using this
    by_cases hlt : p < s.heap.length
    · obtain ⟨k, hk⟩ := h.cache_surj p hlt
      exact ⟨k, (mapSet_other s.cache req.key k s.heap.length (hne k p hk)).trans hk⟩
    · have : p = s.heap.length := by omega
      subst this
      exact ⟨req.key, mapSet_same _ _ _⟩
  · intro k
    show mapSet s.cache req.key s.heap.length k ≠ none ↔ _
    simp only [List.map_append, List.mem_append, List.map_cons, List.map_nil, List.mem_singleton]
    by_cases he : k = req.key
    · subst he
      simp [mapSet_same]
    · rw [mapSet_other s.cache req.key k s.heap.length he, h.cache_pre k]
      simp [he]
  · exact h.isOpen
  · intro q k hm
    show mapSet s.cache req.key s.heap.length k = some q
      ∧ ∃ ent, (s.heap ++ [entry.fresh])[q]? = some ent ∧ ent.ready = false
    have hm' : (Task.call q k ∈ s.tasks ∨ Task.running q k ∈ s.tasks)
        ∨ (q = s.heap.length ∧ k = req.key) := by
      have : Task.call q k ∈ s.tasks ++ [Task.call s.heap.length req.key,
          Task.deliver (some s.heap.length) req.response]
          ∨ Task.running q k ∈ s.tasks ++ [Task.call s.heap.length req.key,
          Task.deliver (some s.heap.length) req.response] := hm
      simp only [List.mem_append, List.mem_cons, List.mem_singleton, Task.call.injEq,
        List.not_mem_nil, or_false] at this
      rcases this with (h1 | h1 | h1) | (h1 | h1 | h1)
      · exact Or.inl (Or.inl h1)
      · exact Or.inr h1
      · cases h1
      · exact Or.inl (Or.inr h1)
      · cases h1
      · cases h1
    rcases hm' with hm' | ⟨hq, hk⟩
    · obtain ⟨h1, ent, h2, h3⟩ := h.call_ok q k hm'
      refine ⟨(mapSet_other s.cache req.key k s.heap.length (hne k q h1)).trans h1, ent, ?_, h3⟩
      rw [getElem?_append_old _ (getElem?_some_lt h2)]
      exact h2
    · subst hq; subst hk
      exact ⟨mapSet_same _ _ _, entry.fresh, List.getElem?_concat_length _ _, rfl⟩
  · intro q k
    show List.count _ (s.tasks ++ _) + List.count _ (s.tasks ++ _) ≤ 1
    rw [List.count_append, List.count_append]
    have hr : List.count (Task.running q k) [Task.call s.heap.length req.key,
        Task.deliver (some s.heap.length) req.response] = 0 := by
      rw [List.count_eq_zero]
      intro hm
      simp only [List.mem_cons, List.mem_singleton, List.not_mem_nil, or_false] at hm
      rcases hm with hm | hm <;> cases hm
    by_cases he : Task.call s.heap.length req.key = Task.call q k
    · have hno : ¬ (Task.call q k ∈ s.tasks ∨ Task.running q k ∈ s.tasks) := by
        intro hm
        cases he
        have := (h.call_ok _ _ hm).1
        rw [hc] at this
        cases this
      have h0 : List.count (Task.call q k) s.tasks = 0 :=
        List.count_eq_zero.2 (fun hm => hno (Or.inl hm))
      have h1 : List.count (Task.running q k) s.tasks = 0 :=
        List.count_eq_zero.2 (fun hm => hno (Or.inr hm))
      rw [h0, h1, hr, ← he]
      simp [List.count_cons]
    · have := h.call_once q k
      have h1 : List.count (Task.call q k) [Task.call s.heap.length req.key,
          Task.deliver (some s.heap.length) req.response] = 0 := by
        rw [List.count_eq_zero]
        intro hm
        simp only [List.mem_cons, List.mem_singleton, List.not_mem_nil, or_false] at hm
        rcases hm with hm | hm
        · exact he hm.symm
        · cases hm
      omega
  · intro k q ent h1 h2 h3
    show Task.call q k ∈ s.tasks ++ _ ∨ Task.running q k ∈ s.tasks ++ _
    by_cases he : k = req.key
    · subst he
      have h1' : mapSet s.cache req.key s.heap.length req.key = some q := h1
      rw [mapSet_same] at h1'
      cases h1'
      simp
    · have h1' : s.cache k = some q := by
        rw [← mapSet_other s.cache req.key k s.heap.length he]; exact h1
      have hlt := h.cache_lt k q h1'
      have h2' : s.heap[q]? = some ent := by
        rw [← getElem?_append_old entry.fresh hlt]; exact h2
      exact (h.unready_call k q ent h1' h2' h3).imp (List.mem_append_left _)
        (List.mem_append_left _)
  · intro k hk
    have hk' : mapSet s.cache req.key s.heap.length k = none := hk
    by_cases he : k = req.key
    · subst he
      exact h.log_none _ hc
    · rw [mapSet_other s.cache req.key k s.heap.length he] at hk'
      exact h.log_none k hk'
  · intro k q ent h1 h2 h3
    by_cases he : k = req.key
    · subst he
      exact h.log_none _ hc
    · have h1' : s.cache k = some q := by
        rw [← mapSet_other s.cache req.key k s.heap.length he]; exact h1
      have hlt := h.cache_lt k q h1'
      have h2' : s.heap[q]? = some ent := by
        rw [← getElem?_append_old entry.fresh hlt]; exact h2
      exact h.log_unready k q ent h1' h2' h3
  · intro k q ent h1 h2 h3
    by_cases he : k = req.key
    · subst he
      have h1' : mapSet s.cache req.key s.heap.length req.key = some q := h1
      rw [mapSet_same] at h1'
      cases h1'
      have h2' : (s.heap ++ [entry.fresh])[s.heap.length]? = some ent := h2
      rw [List.getElem?_concat_length] at h2'
      cases h2'
      cases h3
    · have h1' : s.cache k = some q := by
        rw [← mapSet_other s.cache req.key k s.heap.length he]; exact h1
      have hlt := h.cache_lt k q h1'
      have h2' : s.heap[q]? = some ent := by
        rw [← getElem?_append_old entry.fresh hlt]; exact h2
      exact h.log_ready k q ent h1' h2' h3
  · intro e c hm
    have hm' : Task.deliver e c ∈ s.tasks ∨ (e = some s.heap.length ∧ c = req.response) := by
      have : Task.deliver e c ∈ s.tasks ++ [Task.call s.heap.length req.key,
          Task.deliver (some s.heap.length) req.response] := hm
      simpa using this
    rcases hm' with hm' | ⟨he, hcc⟩
    · obtain ⟨r, hr, hrc, hre⟩ := h.deliver_ok e c hm'
      refine ⟨r, List.mem_append_left _ hr, hrc, ?_⟩
      have hrk : r.key ≠ req.key := by
        intro hk
        have := (h.cache_pre r.key).2 (List.mem_map_of_mem _ hr)
        rw [hk] at this
        exact this hc
      exact (mapSet_other s.cache req.key r.key s.heap.length hrk).trans hre
    · subst he; subst hcc
      exact ⟨req, by simp, rfl, mapSet_same _ _ _⟩
  · intro c v hm
    obtain ⟨r, hr, hrc, q, h1, h2⟩ := h.sent_ok c v hm
    refine ⟨r, List.mem_append_left _ hr, hrc, q, ?_, ?_⟩
    · exact (mapSet_other s.cache req.key r.key s.heap.length (hne _ _ h1)).trans h1
    · show (s.heap ++ [entry.fresh])[q]? = _
      rw [getElem?_append_old _ (h.cache_lt _ _ h1)]
      exact h2
  · intro c
    show List.countP _ (s.tasks ++ _) + _ = _
    rw [List.countP_append, List.countP_append, ← h.account c]
    simp [List.countP_cons, Task.isDeliverTo]
    omega

theorem Inv5_serverBody {σ V E : Type} {pre : List request} {s : Memo5 σ V E}
    (req : request) (h : Inv5 pre s) : Inv5 (pre ++ [req]) (serverBody req s) := by
  cases hc : s.cache req.key with
  | none => exact Inv5_serverBody_absent req h hc
  | some p => exact Inv5_serverBody_present req p h hc

/-! ## Scheme 5: the steps of the Worker and of the Deliverer -/

theorem set_split {α : Type} (l : List α) (i : Nat) (t : α) (h : l[i]? = some t) :
    ∃ l1 l2, l = l1 ++ t :: l2 ∧ (∀ x, l.set i x = l1 ++ x :: l2) := by
  induction l generalizing i with
  | nil => simp at h
  | cons a l ih =>
    cases i with
    | zero =>
      simp at h
      subst h
      exact ⟨[], l, rfl, fun _ => rfl⟩
    | succ i =>
      simp at h
      obtain ⟨l1, l2, h1, h2⟩ := ih i h
      exact ⟨a :: l1, l2, by simp [h1], fun x => by simp [h2]⟩

theorem entry_call_ok {σ V E : Type} (f : Func σ V E) (p : Nat) (k : String) (s : Memo5 σ V E)
    (ent : entry V E) (h1 : s.heap[p]? = some ent) (h2 : ent.ready = false) :
    entry.call f p k s =
      Outcome.ok { s with heap := s.heap.set p ⟨(invoke f k s.env).1, true⟩,
                          env := (invoke f k s.env).2 } := by
  simp [entry.call, h1, h2]

theorem Inv5_enter {σ V E : Type} {pre : List request} {s : Memo5 σ V E}
    (p : Nat) (k : String) (l1 l2 : List Task) (h : Inv5 pre s)
    (ht : s.tasks = l1 ++ Task.call p k :: l2) :
    Inv5 pre { s with tasks := l1 ++ Task.running p k :: l2 } := by
  have hsub : ∀ q k1, Task.call q k1 ∈ l1 ++ Task.running p k :: l2
      ∨ Task.running q k1 ∈ l1 ++ Task.running p k :: l2 →
      Task.call q k1 ∈ s.tasks ∨ Task.running q k1 ∈ s.tasks := by
    intro q k1 hm
    rw [ht]
    simp only [List.mem_append, List.mem_cons, Task.running.injEq, Task.call.injEq] at hm ⊢
    rcases hm with (hm | hm | hm) | (hm | hm | hm)
    · exact Or.inl (Or.inl hm)
    · cases hm
    · exact Or.inl (Or.inr (Or.inr hm))
    · exact Or.inr (Or.inl hm)
    · exact Or.inl (Or.inr (Or.inl hm))
    · exact Or.inr (Or.inr (Or.inr hm))
  constructor
  · exact h.cache_lt
  · exact h.cache_inj
  · exact h.cache_surj
  · exact h.cache_pre
  · exact h.isOpen
  · intro q k1 hm
    exact h.call_ok q k1 (hsub q k1 hm)
  · intro q k1
    have h1 := h.call_once q k1
    rw [ht, List.count_append, List.count_append, List.count_cons, List.count_cons] at h1
    show List.count _ (l1 ++ _) + List.count _ (l1 ++ _) ≤ 1
    rw [List.count_append, List.count_append, List.count_cons, List.count_cons]
    by_cases he : p = q ∧ k = k1
    · obtain ⟨hp, hk⟩ := he
      subst hp; subst hk
      simp at h1 ⊢
      omega
    · have e1 : (Task.call p k == Task.call q k1) = false := by
        simp only [beq_eq_false_iff_ne, ne_eq, Task.call.injEq]
        exact he
      have e2 : (Task.running p k == Task.running q k1) = false := by
        simp only [beq_eq_false_iff_ne, ne_eq, Task.running.injEq]
        exact he
      simp [e1, e2] at h1 ⊢
      omega
  · intro k1 q ent a b c
    have hm := h.unready_call k1 q ent a b c
    rw [ht] at hm
    show Task.call q k1 ∈ l1 ++ _ ∨ Task.running q k1 ∈ l1 ++ _
    simp only [List.mem_append, List.mem_cons, Task.running.injEq, Task.call.injEq] at hm ⊢
    rcases hm with (hm | hm | hm) | (hm | hm | hm)
    · exact Or.inl (Or.inl hm)
    · exact Or.inr (Or.inr (Or.inl hm))
    · exact Or.inl (Or.inr (Or.inr hm))
    · exact Or.inr (Or.inl hm)
    · cases hm
    · exact Or.inr (Or.inr (Or.inr hm))
  · exact h.log_none
  · exact h.log_unready
  · exact h.log_ready
  · intro e c hm
    refine h.deliver_ok e c ?_
    rw [ht]
    simp only [List.mem_append, List.mem_cons] at hm ⊢
    rcases hm with hm | hm | hm
    · exact Or.inl hm
    · cases hm
    · exact Or.inr (Or.inr hm)
  · exact h.sent_ok
  · intro c
    have h1 := h.account c
    rw [ht, List.countP_append, List.countP_cons] at h1
    show List.countP _ (l1 ++ _) + _ = _
    rw [List.countP_append, List.countP_cons]
    simp only [Task.isDeliverTo] at h1 ⊢
    exact h1

theorem Inv5_call {σ V E : Type} {pre : List request} {s s1 : Memo5 σ V E} (f : Func σ V E)
    (p : Nat) (k : String) (l1 l2 : List Task) (h : Inv5 pre s)
    (ht : s.tasks = l1 ++ Task.running p k :: l2)
    (hs : entry.call f p k { s with tasks := l1 ++ l2 } = Outcome.ok s1) : Inv5 pre s1 := by
  have hmem : Task.running p k ∈ s.tasks := by rw [ht]; simp
  obtain ⟨hck, ent, hent, hrdy⟩ := h.call_ok p k (Or.inr hmem)
  rw [entry_call_ok f p k { s with tasks := l1 ++ l2 } ent hent hrdy] at hs
  cases hs
  have hsub : ∀ t, t ∈ l1 ++ l2 → t ∈ s.tasks := by
    intro t ht'
    rw [ht]
    simp only [List.mem_append, List.mem_cons] at ht' ⊢
    tauto
  have hnot : ¬ (Task.call p k ∈ l1 ++ l2 ∨ Task.running p k ∈ l1 ++ l2) := by
    intro hm
    have h1 := h.call_once p k
    rw [ht, List.count_append, List.count_append, List.count_cons_self, List.count_cons] at h1
    rcases hm with hm | hm
    · have h2 : 0 < List.count (Task.call p k) (l1 ++ l2) := List.count_pos_iff.2 hm
      rw [List.count_append] at h2
      omega
    · have h2 : 0 < List.count (Task.running p k) (l1 ++ l2) := List.count_pos_iff.2 hm
      rw [List.count_append] at h2
      omega
  have hplt : p < s.heap.length := getElem?_some_lt hent
  have hkey : ∀ k1, s.cache k1 = some p → k1 = k := fun k1 hk1 => h.cache_inj k1 k p hk1 hck
  constructor
  · intro k1 q hk
    show q < (s.heap.set p _).length
    rw [List.length_set]
    exact h.cache_lt k1 q hk
  · exact h.cache_inj
  · intro q hq
    have hq' : q < (s.heap.set p _).length := hq
    rw [List.length_set] at hq'
    exact h.cache_surj q hq'
  · exact h.cache_pre
  · exact h.isOpen
  · intro q k1 hm
    obtain ⟨a, ent1, b, c⟩ := h.call_ok q k1 (hm.imp (hsub _) (hsub _))
    refine ⟨a, ent1, ?_, c⟩
    have hqp : p ≠ q := by
      intro he
      subst he
      have := hkey k1 a
      subst this
      exact hnot hm
    show (s.heap.set p _)[q]? = _
    rw [List.getElem?_set_ne hqp]
    exact b
  · intro q k1
    have h1 := h.call_once q k1
    rw [ht, List.count_append, List.count_append, List.count_cons, List.count_cons] at h1
    show List.count _ (l1 ++ l2) + List.count _ (l1 ++ l2) ≤ 1
    rw [List.count_append, List.count_append]
    omega
  · intro k1 q ent1 a b c
    have b' : (s.heap.set p _)[q]? = some ent1 := b
    have hqp : p ≠ q := by
      intro he
      subst he
      rw [List.getElem?_set_self hplt] at b'
      cases b'
      cases c
    rw [List.getElem?_set_ne hqp] at b'
    have hm := h.unready_call k1 q ent1 a b' c
    rw [ht] at hm
    show Task.call q k1 ∈ l1 ++ l2 ∨ Task.running q k1 ∈ l1 ++ l2
    simp only [List.mem_append, List.mem_cons, Task.running.injEq] at hm ⊢
    rcases hm with (hm | hm | hm) | (hm | hm | hm)
    · exact Or.inl (Or.inl hm)
    · cases hm
    · exact Or.inl (Or.inr hm)
    · exact Or.inr (Or.inl hm)
    · exact absurd hm.1.symm hqp
    · exact Or.inr (Or.inr hm)
  · intro k1 a
    show logFor k1 (invoke f k s.env).2.log = []
    have hne : k ≠ k1 := by
      intro he
      subst he
      rw [hck] at a
      cases a
    rw [invoke_log, logFor_append, logFor_single_other _ _ _ hne, h.log_none k1 a]
    rfl
  · intro k1 q ent1 a b c
    show logFor k1 (invoke f k s.env).2.log = []
    have b' : (s.heap.set p _)[q]? = some ent1 := b
    have hqp : p ≠ q := by
      intro he
      subst he
      rw [List.getElem?_set_self hplt] at b'
      cases b'
      cases c
    rw [List.getElem?_set_ne hqp] at b'
    have hne : k ≠ k1 := by
      intro he
      subst he
      rw [hck] at a
      cases a
      exact hqp rfl
    rw [invoke_log, logFor_append, logFor_single_other _ _ _ hne, h.log_unready k1 q ent1 a b' c]
    rfl
  · intro k1 q ent1 a b c
    show logFor k1 (invoke f k s.env).2.log = [(k1, ent1.res)]
    have b' : (s.heap.set p _)[q]? = some ent1 := b
    by_cases hqp : p = q
    · subst hqp
      have := hkey k1 a
      subst this
      rw [List.getElem?_set_self hplt] at b'
      cases b'
      rw [invoke_log, logFor_append, logFor_single_same, h.log_unready k1 p ent hck hent hrdy]
      rfl
    · rw [List.getElem?_set_ne hqp] at b'
      have hne : k ≠ k1 := by
        intro he
        subst he
        rw [hck] at a
        cases a
        exact hqp rfl
      rw [invoke_log, logFor_append, logFor_single_other _ _ _ hne, h.log_ready k1 q ent1 a b' c]
      rfl
  · intro e c hm
    exact h.deliver_ok e c (hsub _ hm)
  · intro c v hm
    obtain ⟨r, hr, hrc, q, a, b⟩ := h.sent_ok c v hm
    refine ⟨r, hr, hrc, q, a, ?_⟩
    have hqp : p ≠ q := by
      intro he
      subst he
      rw [hent] at b
      cases b
      cases hrdy
    show (s.heap.set p _)[q]? = _
    rw [List.getElem?_set_ne hqp]
    exact b
  · intro c
    have h1 := h.account c
    rw [ht, List.countP_append, List.countP_cons] at h1
    show List.countP _ (l1 ++ l2) + _ = _
    rw [List.countP_append]
    simp [Task.isDeliverTo] at h1
    exact h1

theorem entry_deliver_ok {σ V E : Type} (p : Nat) (c : Nat) (s : Memo5 σ V E)
    (ent : entry V E) (h1 : s.heap[p]? = some ent) (h2 : ent.ready = true) :
    entry.deliver (some p) c s = Outcome.ok { s with sent := s.sent ++ [(c, ent.res)] } := by
  simp [entry.deliver, h1, h2]

theorem entry_deliver_inv {σ V E : Type} (e : Option Nat) (c : Nat) (s s1 : Memo5 σ V E)
    (h : entry.deliver e c s = Outcome.ok s1) :
    ∃ p ent, e = some p ∧ s.heap[p]? = some ent ∧ ent.ready = true
      ∧ s1 = { s with sent := s.sent ++ [(c, ent.res)] } := by
  unfold entry.deliver at h
  cases e with
  | none => simp at h
  | some p =>
    cases hp : s.heap[p]? with
    | none => simp [hp] at h
    | some ent =>
      cases hr : ent.ready with
      | false => simp [hp, hr] at h
      | true =>
        simp [hp, hr] at h
        exact ⟨p, ent, rfl, hp, hr, h.symm⟩

theorem Inv5_deliver {σ V E : Type} {pre : List request} {s s1 : Memo5 σ V E}
    (e : Option Nat) (c : Nat) (l1 l2 : List Task) (h : Inv5 pre s)
    (ht : s.tasks = l1 ++ Task.deliver e c :: l2)
    (hs : entry.deliver e c { s with tasks := l1 ++ l2 } = Outcome.ok s1) : Inv5 pre s1 := by
  obtain ⟨p, ent, he, hent, hrdy, hs1⟩ := entry_deliver_inv e c _ s1 hs
  subst he
  subst hs1
  have hent : s.heap[p]? = some ent := hent
  have hmem : Task.deliver (some p) c ∈ s.tasks := by rw [ht]; simp
  have hsub : ∀ t, t ∈ l1 ++ l2 → t ∈ s.tasks := by
    intro t ht'
    rw [ht]
    simp only [List.mem_append, List.mem_cons] at ht' ⊢
    tauto
  constructor
  · exact h.cache_lt
  · exact h.cache_inj
  · exact h.cache_surj
  · exact h.cache_pre
  · exact h.isOpen
  · intro q k1 hm
    exact h.call_ok q k1 (hm.imp (hsub _) (hsub _))
  · intro q k1
    have h1 := h.call_once q k1
    rw [ht, List.count_append, List.count_append, List.count_cons, List.count_cons] at h1
    show List.count _ (l1 ++ l2) + List.count _ (l1 ++ l2) ≤ 1
    rw [List.count_append, List.count_append]
    omega
  · intro k1 q ent1 a b c1
    have hm := h.unready_call k1 q ent1 a b c1
    rw [ht] at hm
    show Task.call q k1 ∈ l1 ++ l2 ∨ Task.running q k1 ∈ l1 ++ l2
    simp only [List.mem_append, List.mem_cons] at hm ⊢
    rcases hm with (hm | hm | hm) | (hm | hm | hm)
    · exact Or.inl (Or.inl hm)
    · cases hm
    · exact Or.inl (Or.inr hm)
    · exact Or.inr (Or.inl hm)
    · cases hm
    · exact Or.inr (Or.inr hm)
  · exact h.log_none
  · exact h.log_unready
  · exact h.log_ready
  · intro e1 c1 hm
    exact h.deliver_ok e1 c1 (hsub _ hm)
  · intro c1 v hm
    have hm' : (c1, v) ∈ s.sent ++ [(c, ent.res)] := hm
    simp only [List.mem_append, List.mem_singleton] at hm'
    rcases hm' with hm' | hm'
    · exact h.sent_ok c1 v hm'
    · cases hm'
      obtain ⟨r, hr, hrc, hre⟩ := h.deliver_ok (some p) c hmem
      refine ⟨r, hr, hrc, p, hre, ?_⟩
      rw [hent]
      cases ent with
      | mk res ready =>
        cases hrdy
        rfl
  · intro c1
    have h1 := h.account c1
    rw [ht, List.countP_append, List.countP_cons] at h1
    show List.countP _ (l1 ++ l2) + List.countP _ (s.sent ++ [(c, ent.res)]) = _
    rw [List.countP_append, List.countP_append, List.countP_cons]
    simp only [List.countP_nil, Task.isDeliverTo] at h1 ⊢
    omega

/-! ## Scheme 5: the invariant holds in every reachable state -/

theorem serverStep_open {σ V E : Type} (s : Memo5 σ V E) (req : request) (rest : List request)
    (ho : s.closed = false) (hq : s.sendq = req :: rest) :
    serverStep s = Outcome.ok (serverBody req { s with sendq := rest }) := by
  simp [serverStep, ho, hq]

theorem serverStep_inv {σ V E : Type} (s s1 : Memo5 σ V E)
    (hs : serverStep s = Outcome.ok s1) :
    s.closed = false ∧ ∃ req rest, s.sendq = req :: rest
      ∧ s1 = serverBody req { s with sendq := rest } := by
  unfold serverStep at hs
  cases hc : s.closed with
  | true => simp [hc] at hs
  | false =>
    cases hq : s.sendq with
    | nil => simp [hc, hq] at hs
    | cons req rest =>
      simp only [hc, hq, Bool.false_eq_true, if_false, Outcome.ok.injEq] at hs
      exact ⟨rfl, req, rest, rfl, hs.symm⟩

theorem sender_never_ok {σ V E : Type} (f : Func σ V E) (i : Nat) (s s1 : Memo5 σ V E) :
    step5 f (Choice.sender i) s ≠ Outcome.ok s1 := by
  intro hs
  simp only [step5] at hs
  split at hs
  · cases hs
  · split at hs <;> cases hs

theorem step5_inv {σ V E : Type} {pre : List request} {s s1 : Memo5 σ V E} (f : Func σ V E)
    (c : Choice) (h : Inv5 pre s) (hs : step5 f c s = Outcome.ok s1) :
    ∃ pre1, Inv5 pre1 s1 ∧ pre1 ++ s1.sendq = pre ++ s.sendq := by
  cases c with
  | owner =>
    obtain ⟨_, req, rest, hq, hs1⟩ := serverStep_inv s s1 hs
    subst hs1
    refine ⟨pre ++ [req], Inv5_serverBody req (Inv5_sendq rest h), ?_⟩
    have : (serverBody req { s with sendq := rest }).sendq = rest := by
      unfold serverBody
      split <;> rfl
    rw [this, hq]
    simp
  | task i =>
    cases ht : s.tasks[i]? with
    | none => simp [step5, ht] at hs
    | some t =>
      cases t with
      | call p k =>
        obtain ⟨l1, l2, h1, h2⟩ := set_split s.tasks i _ ht
        simp only [step5, ht, h2, Outcome.ok.injEq] at hs
        subst hs
        exact ⟨pre, Inv5_enter p k l1 l2 h h1, rfl⟩
      | running p k =>
        obtain ⟨l1, l2, h1, h2⟩ := eraseIdx_split s.tasks i _ ht
        simp only [step5, ht, h2] at hs
        have hi := Inv5_call f p k l1 l2 h h1 hs
        refine ⟨pre, hi, ?_⟩
        obtain ⟨_, ent, hent, hrdy⟩ := h.call_ok p k (Or.inr (by rw [h1]; simp))
        rw [entry_call_ok f p k { s with tasks := l1 ++ l2 } ent hent hrdy] at hs
        cases hs
        rfl
      | deliver e c =>
        obtain ⟨l1, l2, h1, h2⟩ := eraseIdx_split s.tasks i _ ht
        simp only [step5, ht, h2] at hs
        have hi := Inv5_deliver e c l1 l2 h h1 hs
        refine ⟨pre, hi, ?_⟩
        obtain ⟨p, ent, _, _, _, hs1⟩ := entry_deliver_inv e c _ s1 hs
        subst hs1
        rfl
  | sender i => exact absurd hs (sender_never_ok f i s s1)

theorem Reach5_inv {σ V E : Type} (f : Func σ V E) (w : σ) (reqs : List request)
    (s : Memo5 σ V E) (h : Reach5 f (start5 w reqs) s) :
    ∃ pre, Inv5 pre s ∧ pre ++ s.sendq = reqs := by
  induction h with
  | refl => exact ⟨[], Inv5_start5 w reqs, rfl⟩
  | step c _ hs ih =>
    obtain ⟨pre, hi, hp⟩ := ih
    obtain ⟨pre1, hi1, hp1⟩ := step5_inv f c hi hs
    exact ⟨pre1, hi1, hp1.trans hp⟩

/-! ## Scheme 5: schedules, panics, progress and termination -/

theorem Reach5_trans {σ V E : Type} {f : Func σ V E} {s t u : Memo5 σ V E}
    (h1 : Reach5 f s t) (h2 : Reach5 f t u) : Reach5 f s u := by
  induction h2 with
  | refl => exact h1
  | step c _ hs ih => exact Reach5.step c ih hs

theorem run5_reach {σ V E : Type} (f : Func σ V E) (sched : List Choice) (s t : Memo5 σ V E)
    (h : run5 f sched s = Outcome.ok t) : Reach5 f s t := by
  induction sched generalizing s with
  | nil =>
    simp only [run5, Outcome.ok.injEq] at h
    subst h
    exact Reach5.refl
  | cons c rest ih =>
    unfold run5 at h
    cases hs : step5 f c s with
    | ok s1 =>
      rw [hs] at h
      exact Reach5_trans (Reach5.step c Reach5.refl hs) (ih s1 h)
    | blocked =>
      rw [hs] at h
      exact ih s h
    | panic msg =>
      rw [hs] at h
      cases h

theorem step5_no_panic {σ V E : Type} {pre : List request} {s : Memo5 σ V E} (f : Func σ V E)
    (c : Choice) (h : Inv5 pre s) (msg : String) : step5 f c s ≠ Outcome.panic msg := by
  intro hs
  cases c with
  | owner =>
    simp only [step5, serverStep, h.isOpen, Bool.false_eq_true, if_false] at hs
    split at hs <;> cases hs
  | task i =>
    cases ht : s.tasks[i]? with
    | none => simp [step5, ht] at hs
    | some t =>
      have hmem : t ∈ s.tasks := List.getElem?_mem ht
      cases t with
      | call p k => simp [step5, ht] at hs
      | running p k =>
        obtain ⟨_, ent, hent, hrdy⟩ := h.call_ok p k (Or.inr hmem)
        simp only [step5, ht] at hs
        rw [entry_call_ok f p k { s with tasks := s.tasks.eraseIdx i } ent hent hrdy] at hs
        cases hs
      | deliver e c =>
        obtain ⟨r, hr, _, hre⟩ := h.deliver_ok e c hmem
        have hne := (h.cache_pre r.key).2 (List.mem_map_of_mem _ hr)
        rw [hre] at hne
        cases e with
        | none => exact hne rfl
        | some p =>
          have hlt := h.cache_lt r.key p hre
          simp only [step5, ht, entry.deliver, List.getElem?_eq_getElem hlt] at hs
          split at hs <;> cases hs
  | sender i =>
    simp only [step5, h.isOpen, Bool.false_eq_true, if_false] at hs
    split at hs <;> cases hs

theorem run5_no_panic {σ V E : Type} (f : Func σ V E) (sched : List Choice)
    {pre : List request} {s : Memo5 σ V E} (h : Inv5 pre s) :
    ∃ t, run5 f sched s = Outcome.ok t := by
  induction sched generalizing s pre with
  | nil => exact ⟨s, rfl⟩
  | cons c rest ih =>
    unfold run5
    cases hs : step5 f c s with
    | ok s1 =>
      obtain ⟨pre1, hi1, _⟩ := step5_inv f c h hs
      exact ih hi1
    | blocked => exact ih h
    | panic msg => exact absurd hs (step5_no_panic f c h msg)

theorem step5_worker_enabled {σ V E : Type} {pre : List request} {s : Memo5 σ V E}
    (f : Func σ V E) (h : Inv5 pre s) (p : Nat) (k : String)
    (hm : Task.call p k ∈ s.tasks ∨ Task.running p k ∈ s.tasks) :
    ∃ i s1, step5 f (Choice.task i) s = Outcome.ok s1 := by
  rcases hm with hm | hm
  · obtain ⟨i, hi⟩ := List.getElem?_of_mem hm
    refine ⟨i, ?_⟩
    simp only [step5, hi]
    exact ⟨_, rfl⟩
  · obtain ⟨i, hi⟩ := List.getElem?_of_mem hm
    obtain ⟨_, ent, hent, hrdy⟩ := h.call_ok p k (Or.inr hm)
    refine ⟨i, ?_⟩
    simp only [step5, hi]
    rw [entry_call_ok f p k { s with tasks := s.tasks.eraseIdx i } ent hent hrdy]
    exact ⟨_, rfl⟩

theorem step5_progress {σ V E : Type} {pre : List request} {s : Memo5 σ V E} (f : Func σ V E)
    (h : Inv5 pre s) (hq : ¬ s.quiescent) : ∃ c s1, step5 f c s = Outcome.ok s1 := by
  cases hs : s.sendq with
  | cons req rest =>
    exact ⟨Choice.owner, _, serverStep_open s req rest h.isOpen hs⟩
  | nil =>
    cases ht : s.tasks with
    | nil => exact absurd ⟨hs, ht⟩ hq
    | cons t rest =>
      have hmem : t ∈ s.tasks := by rw [ht]; simp
      cases t with
      | call p k =>
        obtain ⟨i, s1, hi⟩ := step5_worker_enabled f h p k (Or.inl hmem)
        exact ⟨Choice.task i, s1, hi⟩
      | running p k =>
        obtain ⟨i, s1, hi⟩ := step5_worker_enabled f h p k (Or.inr hmem)
        exact ⟨Choice.task i, s1, hi⟩
      | deliver e c =>
        obtain ⟨r, hr, _, hre⟩ := h.deliver_ok e c hmem
        have hne := (h.cache_pre r.key).2 (List.mem_map_of_mem _ hr)
        rw [hre] at hne
        cases e with
        | none => exact absurd rfl hne
        | some p =>
          have hlt := h.cache_lt r.key p hre
          cases hrdy : (s.heap[p]).ready with
          | false =>
            obtain ⟨i, s1, hi⟩ := step5_worker_enabled f h p r.key
              (h.unready_call r.key p _ hre (List.getElem?_eq_getElem hlt) hrdy)
            exact ⟨Choice.task i, s1, hi⟩
          | true =>
            refine ⟨Choice.task 0, ?_⟩
            simp only [step5, ht, List.getElem?_cons_zero]
            exact ⟨_, entry_deliver_ok p c _ _ (List.getElem?_eq_getElem hlt) hrdy⟩

theorem serverBody_sendq {σ V E : Type} (req : request) (s : Memo5 σ V E) :
    (serverBody req s).sendq = s.sendq := by
  unfold serverBody
  split <;> rfl

theorem serverBody_tasks_work {σ V E : Type} (req : request) (s : Memo5 σ V E) :
    ((serverBody req s).tasks.map Task.work).sum ≤ (s.tasks.map Task.work).sum + 3 := by
  cases hc : s.cache req.key with
  | none => rw [serverBody_absent req s hc]; simp [Task.work]
  | some p => rw [serverBody_present req s p hc]; simp [Task.work]

theorem sum_map_eraseIdx {α : Type} (f : α → Nat) {l : List α} {i : Nat} {t : α}
    (hi : l[i]? = some t) : ((l.eraseIdx i).map f).sum + f t = (l.map f).sum := by
  obtain ⟨l1, l2, h1, h2⟩ := eraseIdx_split l i t hi
  rw [h2, h1]
  simp
  omega

theorem Task_work_pos (t : Task) : 0 < t.work := by
  cases t <;> simp [Task.work]

theorem step5_work {σ V E : Type} (f : Func σ V E) (c : Choice) (s s1 : Memo5 σ V E)
    (hs : step5 f c s = Outcome.ok s1) : s1.work < s.work := by
  cases c with
  | owner =>
    obtain ⟨_, req, rest, hq, hs1⟩ := serverStep_inv s s1 hs
    subst hs1
    have h1 := serverBody_tasks_work req { s with sendq := rest }
    have h2 := serverBody_sendq req { s with sendq := rest }
    simp only [Memo5.work, h2, hq, List.length_cons]
    simp only at h1
    omega
  | task i =>
    cases ht : s.tasks[i]? with
    | none => simp [step5, ht] at hs
    | some t =>
      cases t with
      | call p k =>
        simp only [step5, ht, Outcome.ok.injEq] at hs
        subst hs
        have := sum_map_set Task.work (a := Task.running p k) ht
        simp only [Memo5.work, Task.work] at this ⊢
        omega
      | running p k =>
        have hsum := sum_map_eraseIdx Task.work ht
        simp only [step5, ht, entry.call] at hs
        split at hs
        · cases hs
        · split at hs
          · cases hs
          · cases hs
            simp only [Memo5.work, Task.work] at hsum ⊢
            omega
      | deliver e c =>
        have hsum := sum_map_eraseIdx Task.work ht
        simp only [step5, ht] at hs
        obtain ⟨p, ent, _, _, _, hs1⟩ := entry_deliver_inv e c _ s1 hs
        subst hs1
        simp only [Memo5.work, Task.work] at hsum ⊢
        omega
  | sender i => exact absurd hs (sender_never_ok f i s s1)

/-! ## Scheme 5: what the invariant says about invocations and answers -/

theorem Inv5_logFor {σ V E : Type} {pre : List request} {s : Memo5 σ V E} (h : Inv5 pre s)
    (k : String) :
    logFor k s.env.log = [] ∨
      ∃ p res, s.cache k = some p ∧ s.heap[p]? = some ⟨res, true⟩
        ∧ logFor k s.env.log = [(k, res)] := by
  cases hc : s.cache k with
  | none => exact Or.inl (h.log_none k hc)
  | some p =>
    have hlt := h.cache_lt k p hc
    have hent : s.heap[p]? = some s.heap[p] := List.getElem?_eq_getElem hlt
    cases hr : (s.heap[p]).ready with
    | false => exact Or.inl (h.log_unready k p _ hc hent hr)
    | true =>
      refine Or.inr ⟨p, (s.heap[p]).res, rfl, ?_, h.log_ready k p _ hc hent hr⟩
      rw [hent]
      cases hp : s.heap[p] with
      | mk res ready =>
        rw [hp] at hr
        cases hr
        rfl

theorem Inv5_calls_le_one {σ V E : Type} {pre : List request} {s : Memo5 σ V E}
    (h : Inv5 pre s) (k : String) : s.env.calls.count k ≤ 1 := by
  rw [calls_count]
  rcases Inv5_logFor h k with h1 | ⟨p, res, _, _, h1⟩ <;> simp [h1]

theorem Inv5_calls_mem {σ V E : Type} {pre : List request} {s : Memo5 σ V E}
    (h : Inv5 pre s) (k : String) (hk : k ∈ s.env.calls) : k ∈ pre.map request.key := by
  have hpos : 0 < s.env.calls.count k := List.count_pos_iff.2 hk
  rw [calls_count] at hpos
  rcases Inv5_logFor h k with h1 | ⟨p, res, hc, _, _⟩
  · rw [h1] at hpos
    cases hpos
  · exact (h.cache_pre k).1 (by simp [hc])

theorem Inv5_quiescent_ready {σ V E : Type} {pre : List request} {s : Memo5 σ V E}
    (h : Inv5 pre s) (ht : s.tasks = []) (k : String) (hk : k ∈ pre.map request.key) :
    ∃ p res, s.cache k = some p ∧ s.heap[p]? = some ⟨res, true⟩
      ∧ logFor k s.env.log = [(k, res)] := by
  have hne := (h.cache_pre k).2 hk
  cases hc : s.cache k with
  | none => exact absurd hc hne
  | some p =>
    have hlt := h.cache_lt k p hc
    have hent : s.heap[p]? = some s.heap[p] := List.getElem?_eq_getElem hlt
    cases hr : (s.heap[p]).ready with
    | false =>
      have := h.unready_call k p _ hc hent hr
      rw [ht] at this
      rcases this with this | this <;> cases this
    | true =>
      refine ⟨p, (s.heap[p]).res, rfl, ?_, h.log_ready k p _ hc hent hr⟩
      rw [hent]
      cases hp : s.heap[p] with
      | mk res ready =>
        rw [hp] at hr
        cases hr
        rfl

theorem Inv5_quiescent_calls {σ V E : Type} {pre : List request} {s : Memo5 σ V E}
    (h : Inv5 pre s) (ht : s.tasks = []) (k : String) :
    s.env.calls.count k = if k ∈ pre.map request.key then 1 else 0 := by
  by_cases hk : k ∈ pre.map request.key
  · obtain ⟨p, res, _, _, hl⟩ := Inv5_quiescent_ready h ht k hk
    rw [calls_count, hl, if_pos hk]
    rfl
  · rw [if_neg hk, List.count_eq_zero]
    exact fun hm => hk (Inv5_calls_mem h k hm)

theorem Inv5_answered {σ V E : Type} {pre : List request} {s : Memo5 σ V E}
    (h : Inv5 pre s) (ht : s.tasks = []) (hnd : (pre.map request.response).Nodup)
    (r : request) (hr : r ∈ pre) :
    s.sent.countP (fun m => m.1 == r.response) = 1 := by
  have h1 := h.account r.response
  rw [ht] at h1
  simp only [List.countP_nil, Nat.zero_add] at h1
  rw [h1]
  have h2 : (pre.map request.response).count r.response = 1 :=
    List.count_eq_one_of_mem hnd (List.mem_map_of_mem _ hr)
  rw [List.count, List.countP_map] at h2
  exact h2

theorem Inv5_sent_result {σ V E : Type} {pre reqs : List request} {s : Memo5 σ V E}
    (h : Inv5 pre s) (hsub : ∀ r, r ∈ pre → r ∈ reqs)
    (hnd : (reqs.map request.response).Nodup)
    (r : request) (hr : r ∈ reqs) (v : result V E) (hm : (r.response, v) ∈ s.sent) :
    ∃ p, s.cache r.key = some p ∧ s.heap[p]? = some ⟨v, true⟩
      ∧ logFor r.key s.env.log = [(r.key, v)] := by
  obtain ⟨r1, hr1, hrc, p, hc, hent⟩ := h.sent_ok r.response v hm
  have heq : r1 = r := List.inj_on_of_nodup_map hnd (hsub r1 hr1) hr hrc
  subst heq
  exact ⟨p, hc, hent, h.log_ready r1.key p _ hc hent rfl⟩

theorem Inv5_deliver_bound {σ V E : Type} {pre reqs : List request} {s : Memo5 σ V E}
    (h : Inv5 pre s) (hsub : ∀ r, r ∈ pre → r ∈ reqs)
    (hnd : (reqs.map request.response).Nodup)
    (r : request) (hr : r ∈ reqs) (e : Option Nat) (hm : Task.deliver e r.response ∈ s.tasks) :
    e = s.cache r.key ∧ e ≠ none := by
  obtain ⟨r1, hr1, hrc, hc⟩ := h.deliver_ok e r.response hm
  have heq : r1 = r := List.inj_on_of_nodup_map hnd (hsub r1 hr1) hr hrc
  subst heq
  refine ⟨hc.symm, ?_⟩
  rw [← hc]
  exact (h.cache_pre r1.key).2 (List.mem_map_of_mem _ hr1)

theorem Reach5_inv_from {σ V E : Type} (f : Func σ V E) (reqs pre : List request)
    (s t : Memo5 σ V E) (hi : Inv5 pre s) (hp : pre ++ s.sendq = reqs) (h : Reach5 f s t) :
    ∃ pre1, Inv5 pre1 t ∧ pre1 ++ t.sendq = reqs := by
  induction h with
  | refl => exact ⟨pre, hi, hp⟩
  | step c _ hs ih =>
    obtain ⟨pre0, hi0, hp0⟩ := ih
    obtain ⟨pre1, hi1, hp1⟩ := step5_inv f c hi0 hs
    exact ⟨pre1, hi1, hp1.trans hp0⟩

theorem run5_inv {σ V E : Type} (f : Func σ V E) (w : σ) (reqs : List request)
    (sched : List Choice) (s : Memo5 σ V E) (h : run5 f sched (start5 w reqs) = Outcome.ok s) :
    ∃ pre, Inv5 pre s ∧ pre ++ s.sendq = reqs :=
  Reach5_inv f w reqs s (run5_reach f sched _ s h)

theorem mem_of_append_eq {pre post reqs : List request} (h : pre ++ post = reqs) :
    ∀ r, r ∈ pre → r ∈ reqs := by
  intro r hr
  rw [← h]
  exact List.mem_append_left _ hr

theorem Inv5_to_quiescent {σ V E : Type} (f : Func σ V E) (n : Nat) :
    ∀ (pre : List request) (s : Memo5 σ V E), Inv5 pre s → s.work ≤ n →
      ∃ sched t, run5 f sched s = Outcome.ok t ∧ t.quiescent := by
  induction n with
  | zero =>
    intro pre s _ hw
    refine ⟨[], s, rfl, ?_⟩
    unfold Memo5.work at hw
    constructor
    · exact List.eq_nil_of_length_eq_zero (by omega)
    · cases ht : s.tasks with
      | nil => rfl
      | cons t rest =>
        rw [ht] at hw
        have := Task_work_pos t
        simp only [List.map_cons, List.sum_cons] at hw
        omega
  | succ n ih =>
    intro pre s hi hw
    by_cases hq : s.quiescent
    · exact ⟨[], s, rfl, hq⟩
    · obtain ⟨c, s1, hs⟩ := step5_progress f hi hq
      obtain ⟨pre1, hi1, _⟩ := step5_inv f c hi hs
      have hlt := step5_work f c s s1 hs
      obtain ⟨sched, t, hr, ht⟩ := ih pre1 s1 hi1 (by omega)
      refine ⟨c :: sched, t, ?_, ht⟩
      simp only [run5, hs]
      exact hr

/-! ## Scheme 5: one Worker per key -/

theorem Inv5_worker_alone {σ V E : Type} {pre : List request} {s : Memo5 σ V E}
    (h : Inv5 pre s) (p : Nat) (k : String)
    (hm : Task.call p k ∈ s.tasks ∨ Task.running p k ∈ s.tasks) :
    s.tasks.count (Task.call p k) + s.tasks.count (Task.running p k) = 1
      ∧ s.cache k = some p ∧ k ∉ s.env.calls := by
  obtain ⟨hc, ent, hent, hrdy⟩ := h.call_ok p k hm
  refine ⟨?_, hc, ?_⟩
  · have h1 := h.call_once p k
    rcases hm with hm | hm
    · have := List.count_pos_iff.2 hm
      omega
    · have := List.count_pos_iff.2 hm
      omega
  · intro hk
    have hpos : 0 < s.env.calls.count k := List.count_pos_iff.2 hk
    rw [calls_count, h.log_unready k p ent hc hent hrdy] at hpos
    cases hpos

theorem owner_spawns {σ V E : Type} {pre0 : List request} {s : Memo5 σ V E} (f : Func σ V E)
    (hi : Inv5 pre0 s) (req : request) (post : List request) (hq : s.sendq = req :: post) :
    ∃ p s1, step5 f Choice.owner s = Outcome.ok s1
      ∧ s1.tasks = s.tasks ++
        (if req.key ∈ pre0.map request.key then [Task.deliver (some p) req.response]
         else [Task.call p req.key, Task.deliver (some p) req.response]) := by
  cases hc : s.cache req.key with
  | none =>
    have hk : req.key ∉ pre0.map request.key := by
      intro hk
      exact (hi.cache_pre req.key).2 hk hc
    refine ⟨s.heap.length, serverBody req { s with sendq := post }, ?_, ?_⟩
    · exact serverStep_open s req post hi.isOpen hq
    · rw [serverBody_absent req { s with sendq := post } hc, if_neg hk]
  | some p =>
    have hk : req.key ∈ pre0.map request.key := (hi.cache_pre req.key).1 (by simp [hc])
    refine ⟨p, serverBody req { s with sendq := post }, ?_, ?_⟩
    · exact serverStep_open s req post hi.isOpen hq
    · rw [serverBody_present req { s with sendq := post } p hc, if_pos hk]

/-- C1: under every schedule, from an empty table, the system behind a `Memo5` does not
panic and reaches a state in which: the Owner's handling of the next request `req` spawns
a Worker (`entry.call`, the only place `f` is invoked) exactly when no earlier request of
the sequence has the key of `req` (and always one Deliverer); `f` has been invoked at most
once for every key, and only for keys that occur; as long as a request or a goroutine is
left some goroutine can move, and every step uses up work; and once nothing is left, `f`
has been invoked exactly once for every key that occurs, so the number of invocations is
the number of distinct keys, 5 for the eight URLs of the test.  The log counts the
invocations that have returned; a Worker that has not returned, inside `f` or not, is the
only Worker of its key, is bound to the key's entry, and its key has no invocation that
has returned. -/
theorem Memo5_one_worker_per_key {σ V E : Type} (f : Func σ V E) (w : σ)
    (reqs : List request) (sched : List Choice) :
    ∃ s, run5 f sched (start5 w reqs) = Outcome.ok s
      ∧ (∀ pre req post, reqs = pre ++ req :: post → s.sendq = req :: post →
          ∃ p s1, step5 f Choice.owner s = Outcome.ok s1
            ∧ s1.tasks = s.tasks ++
              (if req.key ∈ pre.map request.key then [Task.deliver (some p) req.response]
               else [Task.call p req.key, Task.deliver (some p) req.response]))
      ∧ (∀ k, s.env.calls.count k ≤ 1)
      ∧ (∀ k, k ∈ s.env.calls → k ∈ reqs.map request.key)
      ∧ (¬ s.quiescent → ∃ c s1, step5 f c s = Outcome.ok s1)
      ∧ (∀ c s1, step5 f c s = Outcome.ok s1 → s1.work < s.work)
      ∧ (s.quiescent →
          (∀ k, s.env.calls.count k = if k ∈ reqs.map request.key then 1 else 0)
          ∧ s.env.calls.length = (reqs.map request.key).dedup.length
          ∧ (reqs.map request.key = incomingURLs → s.env.calls.length = 5))
      ∧ (∀ p k, Task.call p k ∈ s.tasks ∨ Task.running p k ∈ s.tasks →
          s.tasks.count (Task.call p k) + s.tasks.count (Task.running p k) = 1
          ∧ s.cache k = some p ∧ k ∉ s.env.calls) := by
  obtain ⟨s, hs⟩ := run5_no_panic f sched (Inv5_start5 (V := V) (E := E) w reqs)
  obtain ⟨pre0, hi, hp⟩ := run5_inv f w reqs sched s hs
  refine ⟨s, hs, ?_, Inv5_calls_le_one hi, ?_, step5_progress f hi,
    fun c s1 h => step5_work f c s s1 h, ?_, Inv5_worker_alone hi⟩
  · intro pre req post hreqs hq
    have hpre : pre0 = pre := by
      rw [hq, hreqs] at hp
      exact List.append_cancel_right hp
    subst hpre
    exact owner_spawns f hi req post hq
  · intro k hk
    have := Inv5_calls_mem hi k hk
    rw [← hp]
    simp only [List.map_append, List.mem_append]
    exact Or.inl this
  · intro hq
    have hpre : pre0 = reqs := by
      rw [hq.1] at hp
      simpa using hp
    subst hpre
    have hcount := Inv5_quiescent_calls hi hq.2
    have hlen := length_eq_dedup_length _ _ hcount
    refine ⟨hcount, hlen, ?_⟩
    intro hurls
    rw [hlen, hurls]
    decide

theorem Memo5_one_worker_per_key_witness :
    urlReqs.map request.key = incomingURLs
    ∧ ∃ s, run5 lenFunc urlSched (start5 () urlReqs) = Outcome.ok s
      ∧ s.quiescent
      ∧ s.env.calls = ["http://golang.org", "http://godoc.org", "http://play.golang.org",
          "http://golang.io", "http://gopl.io"]
      ∧ s.env.calls.length = 5 := by
  refine ⟨rfl, ?_⟩
  obtain ⟨s, hs, _, _, _, _, _, hq, _⟩ :=
    Memo5_one_worker_per_key lenFunc () urlReqs urlSched
  have hrun : (match run5 lenFunc urlSched (start5 () urlReqs) with
      | Outcome.ok t => (t.sendq, t.tasks, t.env.calls)
      | _ => ([], [], [])) =
      ([], [], ["http://golang.org", "http://godoc.org", "http://play.golang.org",
           "http://golang.io", "http://gopl.io"]) := rfl
  rw [hs] at hrun
  simp only [Prod.mk.injEq] at hrun
  have hquiet : s.quiescent := ⟨hrun.1, hrun.2.1⟩
  exact ⟨s, hs, hquiet, hrun.2.2, (hq hquiet).2.2 rfl⟩

/-! ## Scheme 5: the table -/

/-- C7: handling one request in `Memo5.server` keeps every key that had an entry on the
very same entry (same pointer, and no allocated entry is touched), changes the table at
most at the request's key, inserts nothing when that key has an entry, and inserts exactly
one fresh entry, for that key, when it has none; so under every schedule the table maps
the keys one-to-one onto the entries ever allocated: no key ever has two entries. -/
theorem serverBody_table {σ V E : Type} (req : request) (s : Memo5 σ V E) :
    (∀ k p, s.cache k = some p → (serverBody req s).cache k = some p)
    ∧ (∀ (q : Nat) ent, s.heap[q]? = some ent → (serverBody req s).heap[q]? = some ent)
    ∧ (∀ k, k ≠ req.key → (serverBody req s).cache k = s.cache k)
    ∧ (s.cache req.key ≠ none →
        (serverBody req s).cache = s.cache ∧ (serverBody req s).heap = s.heap)
    ∧ (s.cache req.key = none →
        (serverBody req s).cache req.key = some s.heap.length
        ∧ (serverBody req s).heap = s.heap ++ [entry.fresh])
    ∧ ∀ (f : Func σ V E) (w : σ) (reqs : List request) (sched : List Choice),
        ∃ t, run5 f sched (start5 w reqs) = Outcome.ok t
          ∧ (∀ k p, t.cache k = some p → p < t.heap.length)
          ∧ (∀ p, p < t.heap.length → ∃ k, t.cache k = some p)
          ∧ (∀ k k1 p, t.cache k = some p → t.cache k1 = some p → k = k1) := by
  refine ⟨?_, ?_, ?_, ?_, ?_, ?_⟩
  · intro k p hk
    cases hc : s.cache req.key with
    | none =>
      rw [serverBody_absent req s hc]
      have hne : k ≠ req.key := by
        intro he
        rw [he, hc] at hk
        cases hk
      exact (mapSet_other s.cache req.key k s.heap.length hne).trans hk
    | some p1 =>
      rw [serverBody_present req s p1 hc]
      exact hk
  · intro q ent hq
    cases hc : s.cache req.key with
    | none =>
      rw [serverBody_absent req s hc]
      show (s.heap ++ [entry.fresh])[q]? = some ent
      rw [getElem?_append_old _ (getElem?_some_lt hq)]
      exact hq
    | some p1 =>
      rw [serverBody_present req s p1 hc]
      exact hq
  · intro k hne
    cases hc : s.cache req.key with
    | none =>
      rw [serverBody_absent req s hc]
      exact mapSet_other s.cache req.key k s.heap.length hne
    | some p1 =>
      rw [serverBody_present req s p1 hc]
  · intro hne
    cases hc : s.cache req.key with
    | none => exact absurd hc hne
    | some p1 =>
      rw [serverBody_present req s p1 hc]
      exact ⟨rfl, rfl⟩
  · intro hc
    rw [serverBody_absent req s hc]
    exact ⟨mapSet_same _ _ _, rfl⟩
  · intro f w reqs sched
    obtain ⟨t, ht⟩ := run5_no_panic f sched (Inv5_start5 (V := V) (E := E) w reqs)
    obtain ⟨pre0, hi, _⟩ := run5_inv f w reqs sched t ht
    exact ⟨t, ht, hi.cache_lt, hi.cache_surj, hi.cache_inj⟩

/-! ## Scheme 5: what only grows -/

theorem serverBody_cache_mono {σ V E : Type} (req : request) (s : Memo5 σ V E) (k : String)
    (p : Nat) (hk : s.cache k = some p) : (serverBody req s).cache k = some p := by
  cases hc : s.cache req.key with
  | none =>
    rw [serverBody_absent req s hc]
    have hne : k ≠ req.key := by
      intro he
      rw [he, hc] at hk
      cases hk
    exact (mapSet_other s.cache req.key k s.heap.length hne).trans hk
  | some p1 =>
    rw [serverBody_present req s p1 hc]
    exact hk

theorem step5_mono {σ V E : Type} (f : Func σ V E) (c : Choice) (s s1 : Memo5 σ V E)
    (hs : step5 f c s = Outcome.ok s1) :
    s1.closed = s.closed ∧ (∀ k p, s.cache k = some p → s1.cache k = some p)
      ∧ ∃ l, s1.env.log = s.env.log ++ l := by
  cases c with
  | owner =>
    obtain ⟨_, req, rest, _, hs1⟩ := serverStep_inv s s1 hs
    subst hs1
    refine ⟨(serverBody_closed req _).1, fun k p hk => serverBody_cache_mono req _ k p hk,
      [], ?_⟩
    rw [(serverBody_closed req _).2]
    simp
  | task i =>
    cases ht : s.tasks[i]? with
    | none => simp [step5, ht] at hs
    | some t =>
      cases t with
      | call p k =>
        simp only [step5, ht, Outcome.ok.injEq] at hs
        subst hs
        exact ⟨rfl, fun _ _ hk => hk, [], by simp⟩
      | running p k =>
        simp only [step5, ht, entry.call] at hs
        split at hs
        · cases hs
        · split at hs
          · cases hs
          · cases hs
            exact ⟨rfl, fun _ _ hk => hk, [(k, (invoke f k s.env).1)], rfl⟩
      | deliver e c =>
        simp only [step5, ht] at hs
        obtain ⟨p, ent, _, _, _, hs1⟩ := entry_deliver_inv e c _ s1 hs
        subst hs1
        exact ⟨rfl, fun _ _ hk => hk, [], by simp⟩
  | sender i => exact absurd hs (sender_never_ok f i s s1)

theorem run5_mono {σ V E : Type} (f : Func σ V E) (sched : List Choice) (s t : Memo5 σ V E)
    (h : run5 f sched s = Outcome.ok t) :
    t.closed = s.closed ∧ (∀ k p, s.cache k = some p → t.cache k = some p)
      ∧ ∃ l, t.env.log = s.env.log ++ l := by
  induction sched generalizing s with
  | nil =>
    simp only [run5, Outcome.ok.injEq] at h
    subst h
    exact ⟨rfl, fun _ _ hk => hk, [], by simp⟩
  | cons c rest ih =>
    unfold run5 at h
    cases hs : step5 f c s with
    | ok s1 =>
      rw [hs] at h
      obtain ⟨a1, b1, l1, c1⟩ := step5_mono f c s s1 hs
      obtain ⟨a2, b2, l2, c2⟩ := ih s1 h
      refine ⟨a2.trans a1, fun k p hk => b2 k p (b1 k p hk), l1 ++ l2, ?_⟩
      rw [c2, c1, List.append_assoc]
    | blocked =>
      rw [hs] at h
      exact ih s h
    | panic msg =>
      rw [hs] at h
      cases h

theorem run5_start_open {σ V E : Type} (f : Func σ V E) (w : σ) (reqs : List request)
    (sched : List Choice) (s : Memo5 σ V E) (h : run5 f sched (start5 w reqs) = Outcome.ok s) :
    s.closed = false :=
  (run5_mono f sched _ s h).1

/-! ## Scheme 5: `Get` on a running system -/

theorem nodup_conduits_snoc (reqs : List request) (key : String) (response : Nat)
    (hnd : (reqs.map request.response).Nodup) (hfresh : response ∉ reqs.map request.response) :
    ((reqs ++ [(⟨key, response⟩ : request)]).map request.response).Nodup := by
  rw [List.map_append, List.nodup_append]
  refine ⟨hnd, by simp, ?_⟩
  intro c hc1 hc2
  simp only [List.map_cons, List.map_nil, List.mem_singleton] at hc2
  subst hc2
  exact hfresh hc1

theorem Get_inv {σ V E : Type} (f : Func σ V E) {pre reqs : List request} {s : Memo5 σ V E}
    (hi : Inv5 pre s) (hp : pre ++ s.sendq = reqs) (key : String) (response : Nat)
    (sched : List Choice) (t : Memo5 σ V E)
    (h : run5 f sched { s with sendq := s.sendq ++ [⟨key, response⟩] } = Outcome.ok t) :
    ∃ pre1, Inv5 pre1 t ∧ pre1 ++ t.sendq = reqs ++ [⟨key, response⟩] := by
  refine Reach5_inv_from f _ pre _ t (Inv5_sendq _ hi) ?_ (run5_reach f sched _ t h)
  show pre ++ (s.sendq ++ [(⟨key, response⟩ : request)]) = _
  rw [← List.append_assoc, hp]

theorem Get_returns_logged {σ V E : Type} (f : Func σ V E) {pre reqs : List request}
    {s : Memo5 σ V E} (hi : Inv5 pre s) (hp : pre ++ s.sendq = reqs)
    (hnd : (reqs.map request.response).Nodup) (key : String) (response : Nat)
    (hfresh : response ∉ reqs.map request.response) (sched : List Choice)
    (r : result V E) (t : Memo5 σ V E)
    (h : Memo5.Get f s key response sched = Outcome.ok (r, t)) :
    logFor key t.env.log = [(key, r)] := by
  unfold Memo5.Get at h
  split at h
  · cases h
  · cases hrun : run5 f sched { s with sendq := s.sendq ++ [(⟨key, response⟩ : request)] } with
    | panic msg => rw [hrun] at h; cases h
    | blocked => rw [hrun] at h; cases h
    | ok t1 =>
      rw [hrun] at h
      simp only at h
      cases hfind : t1.sent.find? (fun m => m.1 == response) with
      | none => rw [hfind] at h; cases h
      | some m =>
        rw [hfind] at h
        simp only [Outcome.ok.injEq, Prod.mk.injEq] at h
        obtain ⟨hm2, ht⟩ := h
        subst ht
        obtain ⟨pre1, hi1, hp1⟩ := Get_inv f hi hp key response sched t1 hrun
        have hmem : m ∈ t1.sent := List.mem_of_find?_eq_some hfind
        have hm1 : m.1 = response := by
          have := List.find?_some hfind
          simpa using this
        have hnd1 := nodup_conduits_snoc reqs key response hnd hfresh
        have hsent : ((⟨key, response⟩ : request).response, r) ∈ t1.sent := by
          rw [← hm2]
          show (response, m.2) ∈ t1.sent
          rw [← hm1]
          exact hmem
        obtain ⟨p, _, _, hlog⟩ := Inv5_sent_result hi1 (mem_of_append_eq hp1) hnd1
          ⟨key, response⟩ (by simp) r hsent
        exact hlog

theorem Get_can_return {σ V E : Type} (f : Func σ V E) {pre reqs : List request}
    {s : Memo5 σ V E} (hi : Inv5 pre s) (hp : pre ++ s.sendq = reqs) (hopen : s.closed = false)
    (hnd : (reqs.map request.response).Nodup) (key : String) (response : Nat)
    (hfresh : response ∉ reqs.map request.response) :
    ∃ sched r t, Memo5.Get f s key response sched = Outcome.ok (r, t) := by
  obtain ⟨sched, t, hrun, hq⟩ := Inv5_to_quiescent f _ pre
    { s with sendq := s.sendq ++ [⟨key, response⟩] } (Inv5_sendq _ hi) (Nat.le_refl _)
  obtain ⟨pre1, hi1, hp1⟩ := Get_inv f hi hp key response sched t hrun
  have hpre : pre1 = reqs ++ [⟨key, response⟩] := by
    rw [hq.1] at hp1
    simpa using hp1
  subst hpre
  have hnd1 := nodup_conduits_snoc reqs key response hnd hfresh
  have hcount := Inv5_answered hi1 hq.2 hnd1 ⟨key, response⟩ (by simp)
  have hpos : 0 < t.sent.countP (fun m => m.1 == response) := by
    have : t.sent.countP (fun m => m.1 == response) = 1 := hcount
    omega
  obtain ⟨m, hm, hm1⟩ := List.countP_pos_iff.1 hpos
  cases hfind : t.sent.find? (fun m => m.1 == response) with
  | none =>
    have := List.find?_eq_none.1 hfind m hm
    exact absurd hm1 this
  | some m1 =>
    refine ⟨sched, m1.2, t, ?_⟩
    unfold Memo5.Get
    rw [if_neg (by simp [hopen]), hrun]
    simp only [hfind]

/-! ## Scheme 5: every caller of a key gets the result of the key's one invocation -/

/-- C2: under every schedule, with the response conduits of the requests distinct, in
every state the system behind a `Memo5` reaches: a Deliverer of a request is bound to the
table's entry of the request's key, which stays the key's entry in every later state, so
two Deliverers of one key are bound to the same entry; a value sent on a request's conduit
is the result stored in that ready entry, which is what the only invocation of `f` for the
key returned, so two requests with one key are sent the same result; some goroutine can
move as long as any is left, every step uses up work, and once nothing is left every
request has been sent exactly one result; and a `Get` issued in that state, whatever the
schedule afterwards, returns, when it returns, what the only invocation of `f` for its
key returned, and there is a schedule under which it returns. -/
theorem Memo5_same_result {σ V E : Type} (f : Func σ V E) (w : σ) (reqs : List request)
    (sched : List Choice) (s : Memo5 σ V E)
    (hnd : (reqs.map request.response).Nodup)
    (h : run5 f sched (start5 w reqs) = Outcome.ok s) :
    (∀ r e, r ∈ reqs → Task.deliver e r.response ∈ s.tasks →
        e = s.cache r.key ∧ e ≠ none
        ∧ ∀ sched1 t, run5 f sched1 s = Outcome.ok t → t.cache r.key = e)
    ∧ (∀ r1 r2 e1 e2, r1 ∈ reqs → r2 ∈ reqs → r1.key = r2.key →
        Task.deliver e1 r1.response ∈ s.tasks → Task.deliver e2 r2.response ∈ s.tasks → e1 = e2)
    ∧ (∀ r v, r ∈ reqs → (r.response, v) ∈ s.sent →
        ∃ p, s.cache r.key = some p ∧ s.heap[p]? = some ⟨v, true⟩
          ∧ logFor r.key s.env.log = [(r.key, v)])
    ∧ (∀ r1 r2 v1 v2, r1 ∈ reqs → r2 ∈ reqs → r1.key = r2.key →
        (r1.response, v1) ∈ s.sent → (r2.response, v2) ∈ s.sent → v1 = v2)
    ∧ (¬ s.quiescent → ∃ c s1, step5 f c s = Outcome.ok s1)
    ∧ (∀ c s1, step5 f c s = Outcome.ok s1 → s1.work < s.work)
    ∧ (s.quiescent → ∀ r, r ∈ reqs → s.sent.countP (fun m => m.1 == r.response) = 1)
    ∧ (∀ key response sched1 r t, response ∉ reqs.map request.response →
        Memo5.Get f s key response sched1 = Outcome.ok (r, t) →
        logFor key t.env.log = [(key, r)])
    ∧ (∀ key response, response ∉ reqs.map request.response →
        ∃ sched1 r t, Memo5.Get f s key response sched1 = Outcome.ok (r, t)) := by
  obtain ⟨pre, hi, hp⟩ := run5_inv f w reqs sched s h
  have hsub := mem_of_append_eq hp
  have hbound := fun r hr e hm => Inv5_deliver_bound hi hsub hnd r hr e hm
  have hres := fun r hr v hm => Inv5_sent_result hi hsub hnd r hr v hm
  refine ⟨?_, ?_, ?_, ?_, step5_progress f hi, fun c s1 hs => step5_work f c s s1 hs, ?_, ?_, ?_⟩
  · intro r e hr hm
    obtain ⟨h1, h2⟩ := hbound r hr e hm
    refine ⟨h1, h2, ?_⟩
    intro sched1 t ht
    cases e with
    | none => exact absurd rfl h2
    | some p => exact (run5_mono f sched1 s t ht).2.1 r.key p h1.symm
  · intro r1 r2 e1 e2 hr1 hr2 hk hm1 hm2
    rw [(hbound r1 hr1 e1 hm1).1, (hbound r2 hr2 e2 hm2).1, hk]
  · intro r v hr hm
    exact hres r hr v hm
  · intro r1 r2 v1 v2 hr1 hr2 hk hm1 hm2
    obtain ⟨p1, hc1, he1, _⟩ := hres r1 hr1 v1 hm1
    obtain ⟨p2, hc2, he2, _⟩ := hres r2 hr2 v2 hm2
    rw [hk, hc2] at hc1
    cases hc1
    rw [he2] at he1
    cases he1
    rfl
  · intro hq r hr
    have hpre : pre = reqs := by
      rw [hq.1] at hp
      simpa using hp
    subst hpre
    exact Inv5_answered hi hq.2 hnd r hr
  · intro key response sched1 r t hfresh hget
    exact Get_returns_logged f hi hp hnd key response hfresh sched1 r t hget
  · intro key response hfresh
    exact Get_can_return f hi hp (run5_start_open f w reqs sched s h) hnd key response hfresh

theorem Memo5_same_result_witness :
    (abaReqs.map request.response).Nodup
    ∧ run5 countFunc abaSched (start5 0 abaReqs) = Outcome.ok abaState
    ∧ (∀ r1 r2 v1 v2, r1 ∈ abaReqs → r2 ∈ abaReqs → r1.key = r2.key →
        (r1.response, v1) ∈ abaState.sent → (r2.response, v2) ∈ abaState.sent → v1 = v2)
    ∧ (abaState.quiescent →
        ∀ r, r ∈ abaReqs → abaState.sent.countP (fun m => m.1 == r.response) = 1) :=
  ⟨by decide, rfl,
   (Memo5_same_result countFunc 0 abaReqs abaSched abaState (by decide) rfl).2.2.2.1,
   (Memo5_same_result countFunc 0 abaReqs abaSched abaState (by decide) rfl).2.2.2.2.2.2.1⟩

/-! ## Scheme 1: a repeated `Get` -/

theorem Memo_Get_hit {σ V E : Type} (memo : Memo σ V E) (key : String) (env : Env σ V E)
    (r : result V E) (h : memo.cache key = some r) : memo.Get key env = (r, memo, env) := by
  simp [Memo.Get, h]

theorem Memo_Get_stores {σ V E : Type} (memo : Memo σ V E) (key : String) (env : Env σ V E) :
    (memo.Get key env).2.1.cache key = some (memo.Get key env).1 := by
  cases h : memo.cache key with
  | some res => simp [Memo.Get, h]
  | none => simp [Memo.Get, h, mapSet_same]

theorem Memo_Get_keeps {σ V E : Type} (memo : Memo σ V E) (key k : String) (env : Env σ V E)
    (r : result V E) (h : memo.cache k = some r) : (memo.Get key env).2.1.cache k = some r := by
  cases hc : memo.cache key with
  | some res => simpa [Memo.Get, hc] using h
  | none =>
    have hne : k ≠ key := by
      intro he
      rw [he, hc] at h
      cases h
    simp only [Memo.Get, hc]
    exact (mapSet_other _ _ _ _ hne).trans h

theorem Memo_Gets_keeps {σ V E : Type} (keys : List String) :
    ∀ (memo : Memo σ V E) (env : Env σ V E) (k : String) (r : result V E),
      memo.cache k = some r → (memo.Gets env keys).1.cache k = some r := by
  induction keys with
  | nil => intro memo env k r h; exact h
  | cons key rest ih =>
    intro memo env k r h
    exact ih _ _ k r (Memo_Get_keeps memo key k env r h)

theorem Sequential_Gets {σ V E : Type} (asBytes : V → Option (List UInt8)) (urls : List String) :
    ∀ (m m1 : Memo σ V E) (env e1 : Env σ V E),
      Sequential asBytes m env urls = Outcome.ok (m1, e1) → m.Gets env urls = (m1, e1) := by
  induction urls with
  | nil =>
    intro m m1 env e1 h
    simp only [Sequential, Outcome.ok.injEq] at h
    exact h
  | cons url rest ih =>
    intro m m1 env e1 h
    unfold Sequential at h
    unfold Memo.Gets
    split at h
    · exact ih _ _ _ _ h
    · split at h
      · cases h
      · exact ih _ _ _ _ h

/-- C6: for every `f`, cache state and key, once a `Memo.Get(key)` has returned a pair, a
`Memo.Get(key)` that follows it, directly or after any number of `Get` calls for any keys,
returns the same pair, leaves the cache as it is and does not invoke `f` (world and
invocation log unchanged); and when the loop of the sequential test, whose first URL
`http://golang.org` is repeated after three others, runs to its end, `f` has been invoked
once for each of the five distinct URLs. -/
theorem Memo_Get_again {σ V E : Type} (memo : Memo σ V E) (key : String) (env : Env σ V E)
    (mid : List String) :
    ((memo.Get key env).2.1.Gets (memo.Get key env).2.2 mid).1.Get key
        ((memo.Get key env).2.1.Gets (memo.Get key env).2.2 mid).2
      = ((memo.Get key env).1,
         ((memo.Get key env).2.1.Gets (memo.Get key env).2.2 mid).1,
         ((memo.Get key env).2.1.Gets (memo.Get key env).2.2 mid).2)
    ∧ ∀ (f : Func σ V E) (w : σ) (asBytes : V → Option (List UInt8))
        (m1 : Memo σ V E) (e1 : Env σ V E),
        Sequential asBytes (New f) ⟨w, []⟩ incomingURLs = Outcome.ok (m1, e1) →
        e1.calls = ["http://golang.org", "http://godoc.org", "http://play.golang.org",
                    "http://golang.io", "http://gopl.io"] := by
  constructor
  · exact Memo_Get_hit _ key _ _
      (Memo_Gets_keeps mid _ _ key _ (Memo_Get_stores memo key env))
  · intro f w asBytes m1 e1 h
    have h1 := Sequential_Gets asBytes incomingURLs _ _ _ _ h
    have h2 : ((New f).Gets ⟨w, []⟩ incomingURLs).2.calls =
        ["http://golang.org", "http://godoc.org", "http://play.golang.org",
         "http://golang.io", "http://gopl.io"] := by
      simp [Memo.Gets, incomingURLs, New, Memo.Get, mapEmpty, mapSet, invoke, Env.calls]
    rw [h1] at h2
    exact h2

theorem Memo_Get_again_witness :
    (∃ m1 e1, Sequential some (New bodyFunc) ⟨(), []⟩ incomingURLs = Outcome.ok (m1, e1)
      ∧ e1.calls = ["http://golang.org", "http://godoc.org", "http://play.golang.org",
                    "http://golang.io", "http://gopl.io"])
    ∧ (((New bodyFunc).Get "http://golang.org" ⟨(), []⟩).2.1.Gets
          ((New bodyFunc).Get "http://golang.org" ⟨(), []⟩).2.2
          ["http://godoc.org", "http://play.golang.org", "http://golang.io"]).1.Get
        "http://golang.org"
        (((New bodyFunc).Get "http://golang.org" ⟨(), []⟩).2.1.Gets
          ((New bodyFunc).Get "http://golang.org" ⟨(), []⟩).2.2
          ["http://godoc.org", "http://play.golang.org", "http://golang.io"]).2
      = (((New bodyFunc).Get "http://golang.org" ⟨(), []⟩).1,
         (((New bodyFunc).Get "http://golang.org" ⟨(), []⟩).2.1.Gets
          ((New bodyFunc).Get "http://golang.org" ⟨(), []⟩).2.2
          ["http://godoc.org", "http://play.golang.org", "http://golang.io"]).1,
         (((New bodyFunc).Get "http://golang.org" ⟨(), []⟩).2.1.Gets
          ((New bodyFunc).Get "http://golang.org" ⟨(), []⟩).2.2
          ["http://godoc.org", "http://play.golang.org", "http://golang.io"]).2) :=
  ⟨⟨_, _, rfl,
    (Memo_Get_again (New bodyFunc) "http://golang.org" ⟨(), []⟩ []).2 bodyFunc () some _ _ rfl⟩,
   (Memo_Get_again (New bodyFunc) "http://golang.org" ⟨(), []⟩
      ["http://godoc.org", "http://play.golang.org", "http://golang.io"]).1⟩

/-! ## Scheme 5: `Close` and `Get` on a closed handle -/

theorem Close_ok_inv {σ V E : Type} (s s1 : Memo5 σ V E) (h : Memo5.Close s = Outcome.ok s1) :
    s.closed = false ∧ s1 = { s with closed := true } := by
  unfold Memo5.Close at h
  cases hc : s.closed with
  | true => simp [hc] at h
  | false =>
    simp only [hc, Bool.false_eq_true, if_false, Outcome.ok.injEq] at h
    exact ⟨rfl, h.symm⟩

/-- C4 (as the code behaves): a `Get` issued after `Memo5.Close` does not return a
`ClosedError`: on the closed `Memo5` that `Close` leaves, `Get` panics in its send. -/
theorem Memo5_Get_after_Close_not_error :
    ∃ s, Memo5.Close (New5 () : Memo5 Unit Nat String) = Outcome.ok s
      ∧ Memo5.Get lenFunc s "http://gopl.io" 0 [] = Outcome.panic "send on closed channel"
      ∧ ¬ ∃ r s1, Memo5.Get lenFunc s "http://gopl.io" 0 [] = Outcome.ok (r, s1) ∧ r.err.isSome := by
  refine ⟨{ (New5 () : Memo5 Unit Nat String) with closed := true }, ?_, ?_, ?_⟩
  · simp [Memo5.Close, New5]
  · simp [Memo5.Get]
  · rintro ⟨r, s1, h, -⟩
    simp [Memo5.Get] at h

/-- C4 (amended): for every `f`, key, conduit and schedule, a `Get` issued on a `Memo5`
after `Close` has completed neither hangs nor returns: it panics at once, in its send on
the closed request channel. -/
theorem Memo5_Get_after_Close_panics {σ V E : Type} (f : Func σ V E) (s s1 : Memo5 σ V E)
    (key : String) (response : Nat) (sched : List Choice)
    (h : Memo5.Close s = Outcome.ok s1) :
    Memo5.Get f s1 key response sched = Outcome.panic "send on closed channel" := by
  have hc : s1.closed = true := by
    rw [(Close_ok_inv s s1 h).2]
  simp [Memo5.Get, hc]

theorem Memo5_Get_after_Close_panics_witness :
    Memo5.Close (start5 () [⟨"http://golang.org", 0⟩] : Memo5 Unit Nat String)
      = Outcome.ok { (start5 () [⟨"http://golang.org", 0⟩] : Memo5 Unit Nat String)
                      with closed := true }
    ∧ Memo5.Get lenFunc
        { (start5 () [⟨"http://golang.org", 0⟩] : Memo5 Unit Nat String) with closed := true }
        "http://gopl.io" 7 [Choice.owner, Choice.task 0] = Outcome.panic "send on closed channel" :=
  ⟨rfl,
   Memo5_Get_after_Close_panics lenFunc (start5 () [⟨"http://golang.org", 0⟩]) _
     "http://gopl.io" 7 [Choice.owner, Choice.task 0] rfl⟩

/-- C5 (as the code behaves): `Memo5.Close` is not idempotent: on the handle a first
`Close` has shut down, a second `Close` does not complete normally, it panics. -/
theorem Memo5_Close_twice_panics_example :
    ∃ s, Memo5.Close (New5 () : Memo5 Unit Nat String) = Outcome.ok s
      ∧ Memo5.Close s = Outcome.panic "close of closed channel"
      ∧ ¬ ∃ s1, Memo5.Close s = Outcome.ok s1 := by
  refine ⟨{ (New5 () : Memo5 Unit Nat String) with closed := true }, ?_, ?_, ?_⟩
  · simp [Memo5.Close, New5]
  · simp [Memo5.Close]
  · rintro ⟨s1, h⟩
    simp [Memo5.Close] at h

/-- C5 (amended): a `Close` that completes leaves the request channel closed, and every
`Close` on a handle that has already been shut down panics (close of a closed channel)
instead of completing. -/
theorem Memo5_Close_again_panics {σ V E : Type} (s s1 : Memo5 σ V E)
    (h : Memo5.Close s = Outcome.ok s1) :
    s1.closed = true ∧ Memo5.Close s1 = Outcome.panic "close of closed channel" := by
  have hc : s1.closed = true := by
    rw [(Close_ok_inv s s1 h).2]
  exact ⟨hc, by simp [Memo5.Close, hc]⟩

theorem Memo5_Close_again_panics_witness :
    Memo5.Close (start5 () [⟨"http://golang.org", 0⟩] : Memo5 Unit Nat String)
      = Outcome.ok { (start5 () [⟨"http://golang.org", 0⟩] : Memo5 Unit Nat String)
                      with closed := true }
    ∧ ({ (start5 () [⟨"http://golang.org", 0⟩] : Memo5 Unit Nat String)
          with closed := true } : Memo5 Unit Nat String).closed = true
    ∧ Memo5.Close ({ (start5 () [⟨"http://golang.org", 0⟩] : Memo5 Unit Nat String)
          with closed := true } : Memo5 Unit Nat String)
        = Outcome.panic "close of closed channel" :=
  ⟨rfl, Memo5_Close_again_panics (start5 () [⟨"http://golang.org", 0⟩]) _ rfl⟩

theorem Close_wakes_blocked_Get {σ V E : Type} (f : Func σ V E) (s s1 : Memo5 σ V E)
    (h : Memo5.Close s = Outcome.ok s1) :
    s1.sendq = s.sendq ∧ step5 f Choice.owner s1 = Outcome.blocked
      ∧ ∀ i, i < s.sendq.length →
          step5 f (Choice.sender i) s1 = Outcome.panic "send on closed channel" := by
  obtain ⟨_, h1⟩ := Close_ok_inv s s1 h
  subst h1
  refine ⟨rfl, by simp [step5, serverStep], ?_⟩
  intro i hi
  simp [step5, List.getElem?_eq_getElem hi]

/-! ## Scheme 5: a cached error -/

theorem Inv5_logged {σ V E : Type} {pre : List request} {s : Memo5 σ V E} (hi : Inv5 pre s)
    (k : String) (r : result V E) (h : (k, r) ∈ s.env.log) :
    ∃ p, s.cache k = some p ∧ s.heap[p]? = some ⟨r, true⟩ ∧ logFor k s.env.log = [(k, r)] := by
  have hm := mem_logFor k r _ h
  rcases Inv5_logFor hi k with h1 | ⟨p, res, hc, hent, hl⟩
  · rw [h1] at hm
    cases hm
  · rw [hl] at hm
    simp only [List.mem_singleton, Prod.mk.injEq, true_and] at hm
    subst hm
    exact ⟨p, hc, hent, hl⟩

theorem Get_ok_inv {σ V E : Type} (f : Func σ V E) (s t : Memo5 σ V E) (key : String)
    (response : Nat) (sched : List Choice) (r : result V E)
    (h : Memo5.Get f s key response sched = Outcome.ok (r, t)) :
    s.closed = false
      ∧ run5 f sched { s with sendq := s.sendq ++ [(⟨key, response⟩ : request)] } = Outcome.ok t
      ∧ (response, r) ∈ t.sent := by
  unfold Memo5.Get at h
  split at h
  · cases h
  · rename_i hc
    have hc : s.closed = false := by simpa using hc
    cases hrun : run5 f sched { s with sendq := s.sendq ++ [(⟨key, response⟩ : request)] } with
    | panic msg => rw [hrun] at h; cases h
    | blocked => rw [hrun] at h; cases h
    | ok t1 =>
      rw [hrun] at h
      simp only at h
      cases hfind : t1.sent.find? (fun m => m.1 == response) with
      | none => rw [hfind] at h; cases h
      | some m =>
        rw [hfind] at h
        simp only [Outcome.ok.injEq, Prod.mk.injEq] at h
        obtain ⟨hm2, ht⟩ := h
        subst ht
        have hmem : m ∈ t1.sent := List.mem_of_find?_eq_some hfind
        have hm1 : m.1 = response := by
          have := List.find?_some hfind
          simpa using this
        refine ⟨hc, rfl, ?_⟩
        rw [← hm2, ← hm1]
        exact hmem

/-- C3: when an invocation of `f` for the key `k` has returned `(v, e)` with `e` an error,
the error is cached like a value: `k`'s entry is ready and holds `(v, e)`, and under every
further schedule, whatever requests are handled meanwhile, the system does not panic and
reaches a state in which `k` still has that entry holding `(v, e)`, `f` has still been
invoked once for `k`, no Worker for `k` exists, inside `f` or not, the Owner's handling of
a next request for `k` spawns nothing but a Deliverer bound to that entry, and every result
sent to a request for `k` is `(v, e)`; some goroutine can move as long as a request or a
goroutine is left and every step uses up work, so the system comes to rest, and then every
request for `k` has been sent `(v, e)`, once; and a `Get(k)` issued in that state returns,
when it returns, `(v, e)` with `f` still invoked once for `k`, and there is a schedule
under which it returns `(v, e)`. -/
theorem Memo5_error_cached {σ V E : Type} (f : Func σ V E) (w : σ) (reqs : List request)
    (sched : List Choice) (s : Memo5 σ V E) (k : String) (v : Option V) (e : E)
    (hnd : (reqs.map request.response).Nodup)
    (h : run5 f sched (start5 w reqs) = Outcome.ok s)
    (herr : (k, ⟨v, some e⟩) ∈ s.env.log) :
    ∃ p, s.cache k = some p ∧ s.heap[p]? = some ⟨⟨v, some e⟩, true⟩
      ∧ ∀ sched1, ∃ t, run5 f sched1 s = Outcome.ok t
        ∧ t.cache k = some p ∧ t.heap[p]? = some ⟨⟨v, some e⟩, true⟩
        ∧ logFor k t.env.log = [(k, ⟨v, some e⟩)]
        ∧ (∀ q, Task.call q k ∉ t.tasks ∧ Task.running q k ∉ t.tasks)
        ∧ (∀ req post, t.sendq = req :: post → req.key = k →
            ∃ t1, step5 f Choice.owner t = Outcome.ok t1
              ∧ t1.tasks = t.tasks ++ [Task.deliver (some p) req.response])
        ∧ (∀ r x, r ∈ reqs → r.key = k → (r.response, x) ∈ t.sent → x = ⟨v, some e⟩)
        ∧ (¬ t.quiescent → ∃ c t1, step5 f c t = Outcome.ok t1)
        ∧ (∀ c t1, step5 f c t = Outcome.ok t1 → t1.work < t.work)
        ∧ (t.quiescent → ∀ r, r ∈ reqs → r.key = k →
            (r.response, ⟨v, some e⟩) ∈ t.sent
            ∧ t.sent.countP (fun m => m.1 == r.response) = 1)
        ∧ (∀ response sched2 r t2, response ∉ reqs.map request.response →
            Memo5.Get f t k response sched2 = Outcome.ok (r, t2) →
            r = ⟨v, some e⟩ ∧ logFor k t2.env.log = [(k, ⟨v, some e⟩)])
        ∧ (∀ response, response ∉ reqs.map request.response →
            ∃ sched2 t2, Memo5.Get f t k response sched2 = Outcome.ok (⟨v, some e⟩, t2)) := by
  obtain ⟨pre, hi, hp⟩ := run5_inv f w reqs sched s h
  obtain ⟨p, hc, hent, _⟩ := Inv5_logged hi k _ herr
  refine ⟨p, hc, hent, ?_⟩
  intro sched1
  obtain ⟨t, ht⟩ := run5_no_panic f sched1 hi
  obtain ⟨pre1, hi1, hp1⟩ := Reach5_inv_from f reqs pre s t hi hp (run5_reach f sched1 s t ht)
  obtain ⟨_, hcm, l, hlog⟩ := run5_mono f sched1 s t ht
  have hct := hcm k p hc
  have herr1 : (k, (⟨v, some e⟩ : result V E)) ∈ t.env.log := by
    rw [hlog]
    exact List.mem_append_left _ herr
  obtain ⟨p1, hc1, hent1, hl1⟩ := Inv5_logged hi1 k _ herr1
  rw [hct] at hc1
  cases hc1
  have hsub := mem_of_append_eq hp1
  have hans : ∀ r x, r ∈ reqs → r.key = k → (r.response, x) ∈ t.sent → x = ⟨v, some e⟩ := by
    intro r x hr hk hm
    obtain ⟨q, hq1, hq2, _⟩ := Inv5_sent_result hi1 hsub hnd r hr x hm
    rw [hk, hct] at hq1
    cases hq1
    rw [hent1] at hq2
    cases hq2
    rfl
  have hget : ∀ response sched2 r t2, response ∉ reqs.map request.response →
      Memo5.Get f t k response sched2 = Outcome.ok (r, t2) →
      r = ⟨v, some e⟩ ∧ logFor k t2.env.log = [(k, ⟨v, some e⟩)] := by
    intro response sched2 r t2 hfresh hg
    have hl2 := Get_returns_logged f hi1 hp1 hnd k response hfresh sched2 r t2 hg
    obtain ⟨_, hrun, _⟩ := Get_ok_inv f t t2 k response sched2 r hg
    obtain ⟨_, _, l2, hlog2⟩ := run5_mono f sched2 _ t2 hrun
    have hmem : (k, (⟨v, some e⟩ : result V E)) ∈ logFor k t2.env.log := by
      apply mem_logFor
      rw [hlog2]
      exact List.mem_append_left _ herr1
    rw [hl2] at hmem
    simp only [List.mem_singleton, Prod.mk.injEq, true_and] at hmem
    rw [← hmem] at hl2
    exact ⟨hmem.symm, hl2⟩
  refine ⟨t, ht, hct, hent1, hl1, ?_, ?_, hans, step5_progress f hi1,
    fun c t1 hs => step5_work f c t t1 hs, ?_, hget, ?_⟩
  · intro q
    have hno : ¬ (Task.call q k ∈ t.tasks ∨ Task.running q k ∈ t.tasks) := by
      intro hm
      obtain ⟨a, ent, b, c⟩ := hi1.call_ok q k hm
      rw [hct] at a
      cases a
      rw [hent1] at b
      cases b
      cases c
    exact ⟨fun hm => hno (Or.inl hm), fun hm => hno (Or.inr hm)⟩
  · intro req post hq hk
    refine ⟨serverBody req { t with sendq := post }, serverStep_open t req post hi1.isOpen hq, ?_⟩
    rw [serverBody_present req { t with sendq := post } p (by rw [hk]; exact hct)]
  · intro hq r hr hk
    have hpre : pre1 = reqs := by
      rw [hq.1] at hp1
      simpa using hp1
    subst hpre
    have hcount := Inv5_answered hi1 hq.2 hnd r hr
    have hpos : 0 < t.sent.countP (fun m => m.1 == r.response) := by omega
    obtain ⟨m, hm, hm1⟩ := List.countP_pos_iff.1 hpos
    have hm1' : m.1 = r.response := by simpa using hm1
    have hm' : (r.response, m.2) ∈ t.sent := by
      rw [← hm1']
      exact hm
    refine ⟨?_, hcount⟩
    rw [← hans r m.2 hr hk hm']
    exact hm'
  · intro response hfresh
    obtain ⟨sched2, r, t2, hg⟩ :=
      Get_can_return f hi1 hp1 hi1.isOpen hnd k response hfresh
    have := (hget response sched2 r t2 hfresh hg).1
    subst this
    exact ⟨sched2, t2, hg⟩

theorem Memo5_error_cached_witness :
    (errReqs.map request.response).Nodup
    ∧ run5 failFunc errSched (start5 () errReqs) = Outcome.ok errState
    ∧ ("http://golang.io", (⟨none, some "no such host: http://golang.io"⟩ : result Nat String))
        ∈ errState.env.log
    ∧ ∃ p, errState.cache "http://golang.io" = some p
      ∧ errState.heap[p]? = some ⟨⟨none, some "no such host: http://golang.io"⟩, true⟩
      ∧ ∀ sched1, ∃ t, run5 failFunc sched1 errState = Outcome.ok t
        ∧ t.cache "http://golang.io" = some p
        ∧ logFor "http://golang.io" t.env.log
            = [("http://golang.io", ⟨none, some "no such host: http://golang.io"⟩)]
        ∧ (t.quiescent → ∀ r, r ∈ errReqs → r.key = "http://golang.io" →
            (r.response, ⟨none, some "no such host: http://golang.io"⟩) ∈ t.sent
            ∧ t.sent.countP (fun m => m.1 == r.response) = 1) :=
  ⟨by decide, rfl, List.Mem.head _,
   (Memo5_error_cached failFunc () errReqs errSched errState
      "http://golang.io" none "no such host: http://golang.io" (by decide) rfl
      (List.Mem.head _)).imp
    (fun _ hp => ⟨hp.1, hp.2.1, fun sched1 =>
      (hp.2.2 sched1).imp
        (fun _ ht => ⟨ht.1, ht.2.1, ht.2.2.2.1, ht.2.2.2.2.2.2.2.2.2.1⟩)⟩)⟩

/-! ## Scheme 5: the Owner does not wait, and computations overlap -/

theorem run5_append {σ V E : Type} (f : Func σ V E) (a b : List Choice) :
    ∀ (s s1 t : Memo5 σ V E), run5 f a s = Outcome.ok s1 → run5 f b s1 = Outcome.ok t →
      run5 f (a ++ b) s = Outcome.ok t := by
  induction a with
  | nil =>
    intro s s1 t h1 h2
    simp only [run5, Outcome.ok.injEq] at h1
    subst h1
    exact h2
  | cons c rest ih =>
    intro s s1 t h1 h2
    simp only [List.cons_append]
    unfold run5 at h1 ⊢
    cases hs : step5 f c s with
    | ok s2 =>
      rw [hs] at h1
      exact ih s2 s1 t h1 h2
    | blocked =>
      rw [hs] at h1
      exact ih s s1 t h1 h2
    | panic msg =>
      rw [hs] at h1
      cases h1

theorem owners_run {σ V E : Type} (f : Func σ V E) (reqs : List request) :
    ∀ s : Memo5 σ V E, s.closed = false → s.sendq = reqs →
      ∃ t, run5 f (List.replicate reqs.length Choice.owner) s = Outcome.ok t
        ∧ t.sendq = [] ∧ t.env = s.env ∧ t.sent = s.sent
        ∧ ∀ p k, Task.running p k ∈ t.tasks → Task.running p k ∈ s.tasks := by
  induction reqs with
  | nil =>
    intro s _ hq
    exact ⟨s, rfl, hq, rfl, rfl, fun _ _ h => h⟩
  | cons req rest ih =>
    intro s ho hq
    have hstep : step5 f Choice.owner s = Outcome.ok (serverBody req { s with sendq := rest }) :=
      serverStep_open s req rest ho hq
    obtain ⟨hc1, he1⟩ := serverBody_closed req { s with sendq := rest }
    have hsent : (serverBody req { s with sendq := rest }).sent = s.sent := by
      unfold serverBody
      split <;> rfl
    have htasks : ∀ p k, Task.running p k ∈ (serverBody req { s with sendq := rest }).tasks →
        Task.running p k ∈ s.tasks := by
      intro p k hm
      cases hc : s.cache req.key with
      | none =>
        rw [serverBody_absent req { s with sendq := rest } hc] at hm
        simpa using hm
      | some q =>
        rw [serverBody_present req { s with sendq := rest } q hc] at hm
        simpa using hm
    obtain ⟨t, ht, h1, h2, h3, h4⟩ := ih (serverBody req { s with sendq := rest })
      (hc1.trans ho) (serverBody_sendq req _)
    refine ⟨t, ?_, h1, h2.trans he1, h3.trans hsent, fun p k hm => htasks p k (h4 p k hm)⟩
    simp only [List.length_cons, List.replicate_succ, run5, hstep]
    exact ht

theorem map_enter_no_call (l : List Task) (p : Nat) (k : String) :
    Task.call p k ∉ l.map Task.enter := by
  intro hm
  obtain ⟨t, _, ht⟩ := List.mem_map.1 hm
  cases t <;> simp [Task.enter] at ht

theorem map_enter_id (l : List Task) (h : l.countP Task.isCall = 0) : l.map Task.enter = l := by
  induction l with
  | nil => rfl
  | cons t rest ih =>
    cases t with
    | call p k => simp [List.countP_cons, Task.isCall] at h
    | running p k =>
      simp only [List.countP_cons, Task.isCall] at h
      simp [Task.enter, ih (by simpa using h)]
    | deliver e c =>
      simp only [List.countP_cons, Task.isCall] at h
      simp [Task.enter, ih (by simpa using h)]

theorem enter_all {σ V E : Type} (f : Func σ V E) (n : Nat) :
    ∀ s : Memo5 σ V E, s.tasks.countP Task.isCall ≤ n →
      ∃ sched, run5 f sched s = Outcome.ok { s with tasks := s.tasks.map Task.enter } := by
  induction n with
  | zero =>
    intro s hn
    refine ⟨[], ?_⟩
    rw [map_enter_id s.tasks (by omega)]
    rfl
  | succ n ih =>
    intro s hn
    by_cases h0 : s.tasks.countP Task.isCall = 0
    · refine ⟨[], ?_⟩
      rw [map_enter_id s.tasks h0]
      rfl
    · obtain ⟨t, hm, ht⟩ := List.countP_pos_iff.1 (Nat.pos_of_ne_zero h0)
      cases t with
      | running p k => cases ht
      | deliver e c => cases ht
      | call p k =>
        obtain ⟨i, hi⟩ := List.getElem?_of_mem hm
        obtain ⟨l1, l2, h1, h2⟩ := set_split s.tasks i _ hi
        have hstep : step5 f (Choice.task i) s =
            Outcome.ok { s with tasks := l1 ++ Task.running p k :: l2 } := by
          simp only [step5, hi, h2]
        have hcount : (l1 ++ Task.running p k :: l2).countP Task.isCall ≤ n := by
          rw [h1, List.countP_append, List.countP_cons] at hn
          rw [List.countP_append, List.countP_cons]
          simp only [Task.isCall] at hn ⊢
          simp at hn ⊢
          omega
        obtain ⟨sched, hrun⟩ := ih { s with tasks := l1 ++ Task.running p k :: l2 } hcount
        refine ⟨Choice.task i :: sched, ?_⟩
        simp only [run5, hstep]
        rw [hrun, h1]
        simp [Task.enter]

/-- C8: under every schedule the system behind a `Memo5` reaches, without panic, a state
in which: whenever a request is pending the Owner can take its step, whichever Workers are
inside `f`, whichever Deliverers are unfinished and whichever entries are not ready, and
that step only looks the key up, inserts an entry when there is none, and spawns the
Deliverer and, for a new key, the Worker, leaving every other goroutine as it is: it does
not invoke `f`, sends nothing and touches no existing entry; every Worker that has not
entered `f` can enter it, whichever Workers are inside `f`, and changes nothing else; and
for every Worker inside `f`, `f` can return, which leaves the pending requests and the
other goroutines as they are.  And there is a schedule after which every request has been
dispatched by the Owner and the computations of all keys are under way together: for every
request the Worker of its key is inside `f`, its entry is not ready, no invocation of `f`
has returned and nothing has been sent. -/
theorem Memo5_owner_never_waits {σ V E : Type} (f : Func σ V E) (w : σ)
    (reqs : List request) :
    (∀ sched, ∃ s, run5 f sched (start5 w reqs) = Outcome.ok s
      ∧ (∀ req post, s.sendq = req :: post →
          ∃ s1, step5 f Choice.owner s = Outcome.ok s1 ∧ s1.sendq = post
            ∧ s1.env = s.env ∧ s1.sent = s.sent
            ∧ (∀ (q : Nat) ent, s.heap[q]? = some ent → s1.heap[q]? = some ent)
            ∧ ∃ p, s1.cache req.key = some p
              ∧ (s1.tasks = s.tasks ++ [Task.deliver (some p) req.response]
                ∨ s1.tasks = s.tasks ++
                    [Task.call p req.key, Task.deliver (some p) req.response]))
      ∧ (∀ p k, Task.call p k ∈ s.tasks →
          ∃ i, s.tasks[i]? = some (Task.call p k)
            ∧ step5 f (Choice.task i) s =
                Outcome.ok { s with tasks := s.tasks.set i (Task.running p k) })
      ∧ (∀ p k, Task.running p k ∈ s.tasks →
          ∃ i s1, s.tasks[i]? = some (Task.running p k)
            ∧ step5 f (Choice.task i) s = Outcome.ok s1 ∧ s1.sendq = s.sendq
            ∧ s1.tasks = s.tasks.eraseIdx i ∧ s1.env.calls = s.env.calls ++ [k]))
    ∧ ∃ sched s, run5 f sched (start5 w reqs) = Outcome.ok s
        ∧ s.sendq = [] ∧ s.env.log = [] ∧ s.sent = []
        ∧ ∀ r, r ∈ reqs →
            ∃ p ent, s.cache r.key = some p ∧ Task.running p r.key ∈ s.tasks
              ∧ s.heap[p]? = some ent ∧ ent.ready = false := by
  constructor
  · intro sched
    obtain ⟨s, hs⟩ := run5_no_panic f sched (Inv5_start5 (V := V) (E := E) w reqs)
    obtain ⟨pre, hi, _⟩ := run5_inv f w reqs sched s hs
    refine ⟨s, hs, ?_, ?_, ?_⟩
    · intro req post hq
      refine ⟨serverBody req { s with sendq := post },
        serverStep_open s req post hi.isOpen hq, ?_⟩
      cases hc : s.cache req.key with
      | none =>
        rw [serverBody_absent req { s with sendq := post } hc]
        refine ⟨rfl, rfl, rfl, ?_, s.heap.length, mapSet_same _ _ _, Or.inr rfl⟩
        intro q ent hq1
        exact (getElem?_append_old _ (getElem?_some_lt hq1)).trans hq1
      | some p =>
        rw [serverBody_present req { s with sendq := post } p hc]
        exact ⟨rfl, rfl, rfl, fun _ _ hq1 => hq1, p, hc, Or.inl rfl⟩
    · intro p k hm
      obtain ⟨i, hi1⟩ := List.getElem?_of_mem hm
      refine ⟨i, hi1, ?_⟩
      simp only [step5, hi1]
    · intro p k hm
      obtain ⟨i, hi1⟩ := List.getElem?_of_mem hm
      obtain ⟨_, ent, hent, hrdy⟩ := hi.call_ok p k (Or.inr hm)
      have hstep : step5 f (Choice.task i) s =
          Outcome.ok { s with tasks := s.tasks.eraseIdx i,
                              heap := s.heap.set p ⟨(invoke f k s.env).1, true⟩,
                              env := (invoke f k s.env).2 } := by
        simp only [step5, hi1]
        exact entry_call_ok f p k { s with tasks := s.tasks.eraseIdx i } ent hent hrdy
      refine ⟨i, _, hi1, hstep, rfl, rfl, ?_⟩
      simp [Env.calls, invoke]
  · obtain ⟨t, ht, hq, henv, hsent, _⟩ :=
      owners_run f reqs (start5 w reqs : Memo5 σ V E) rfl rfl
    obtain ⟨sched2, hrun2⟩ := enter_all f _ t (Nat.le_refl _)
    have hrun := run5_append f _ sched2 _ t _ ht hrun2
    obtain ⟨pre, hi, hp⟩ := run5_inv f w reqs _ _ hrun
    have hpre : pre = reqs := by
      have hp1 : pre ++ t.sendq = reqs := hp
      rw [hq] at hp1
      simpa using hp1
    subst hpre
    have hlog : t.env.log = [] := by rw [henv]; rfl
    refine ⟨_, _, hrun, hq, hlog, hsent, ?_⟩
    intro r hr
    have hne := (hi.cache_pre r.key).2 (List.mem_map_of_mem _ hr)
    cases hc : t.cache r.key with
    | none => exact absurd hc hne
    | some p =>
      have hlt : p < t.heap.length := hi.cache_lt r.key p hc
      have hent : t.heap[p]? = some t.heap[p] := List.getElem?_eq_getElem hlt
      cases hrdy : (t.heap[p]).ready with
      | true =>
        have h1 := hi.log_ready r.key p _ hc hent hrdy
        have h2 : logFor r.key t.env.log = [] := by rw [hlog]; rfl
        rw [h2] at h1
        cases h1
      | false =>
        refine ⟨p, t.heap[p], rfl, ?_, hent, hrdy⟩
        rcases hi.unready_call r.key p _ hc hent hrdy with hm | hm
        · exact absurd hm (map_enter_no_call t.tasks p r.key)
        · exact hm

theorem Memo5_owner_never_waits_witness :
    run5 countFunc [Choice.owner, Choice.owner, Choice.task 0, Choice.task 2]
        (start5 0 [⟨"a", 0⟩, ⟨"b", 1⟩]) = Outcome.ok overlapState
    ∧ (∃ i s1, overlapState.tasks[i]? = some (Task.running 0 "a")
        ∧ step5 countFunc (Choice.task i) overlapState = Outcome.ok s1
        ∧ s1.sendq = overlapState.sendq ∧ s1.tasks = overlapState.tasks.eraseIdx i
        ∧ s1.env.calls = overlapState.env.calls ++ ["a"])
    ∧ (∃ i s1, overlapState.tasks[i]? = some (Task.running 1 "b")
        ∧ step5 countFunc (Choice.task i) overlapState = Outcome.ok s1
        ∧ s1.sendq = overlapState.sendq ∧ s1.tasks = overlapState.tasks.eraseIdx i
        ∧ s1.env.calls = overlapState.env.calls ++ ["b"]) := by
  obtain ⟨s, hs, _, _, hret⟩ :=
    (Memo5_owner_never_waits countFunc 0 [⟨"a", 0⟩, ⟨"b", 1⟩]).1
      [Choice.owner, Choice.owner, Choice.task 0, Choice.task 2]
  have hrun : run5 countFunc [Choice.owner, Choice.owner, Choice.task 0, Choice.task 2]
      (start5 0 [⟨"a", 0⟩, ⟨"b", 1⟩]) = Outcome.ok overlapState := rfl
  rw [hrun] at hs
  cases hs
  exact ⟨hrun, hret 0 "a" (by simp [overlapState]), hret 1 "b" (by simp [overlapState])⟩

end GoMemo
